import Mathlib

/-!
# Verification of the `lol-ranking` Discord bot (`src/app/main.go`)

A shallow embedding of the ranking, day-window, tally, sorting, throttling
and roster-file logic of `main.go`, together with theorems settling the
specification claims.

Conventions:

* Machine integers (`int`, `int64`) are modelled as `Int`; every division
  in the embedded code is by a positive constant, where Go's division
  agrees with Lean's `Int` floor division `/` on the values that occur
  (the one truncating division on a possibly-arbitrary value,
  `gameCreation / 1000`, is modelled by `Int.tdiv`).
* `time.Time` values are modelled by their Unix second count (`Int`);
  the calendar conversions of Go's `time` package (a well-specified
  external library) are embedded following its `absDate` /
  `daysSinceEpoch` algorithms, specialised to the fixed `Asia/Tokyo`
  zone (UTC+9, no DST) that `handleDayStatsCommand` constructs.
* Fallible remote calls are modelled by oracle functions returning
  `Option` values (`none` = the call failed), collected in `Env`.
-/

namespace LolRanking

/-! ## Calendar model (Go `time` package, fixed JST zone) -/

/-- Go `isLeap`: a year is leap iff divisible by 4 and not by 100 unless
by 400. -/
def isLeap (y : Int) : Bool := y % 4 == 0 && (y % 100 != 0 || y % 400 == 0)

/-- Go's `daysBefore` table: cumulative days in a common year before the
(1-based) month `m + 1`; `daysBefore 0 = 0`, `daysBefore 12 = 365`.
Arguments outside `[0, 12]` are clamped, they do not occur in any use. -/
def daysBefore (m : Int) : Int :=
  if m ≤ 0 then 0
  else if m = 1 then 31
  else if m = 2 then 59
  else if m = 3 then 90
  else if m = 4 then 120
  else if m = 5 then 151
  else if m = 6 then 181
  else if m = 7 then 212
  else if m = 8 then 243
  else if m = 9 then 273
  else if m = 10 then 304
  else if m = 11 then 334
  else 365

/-- Days from 0001-01-01 (proleptic Gregorian) to January 1 of `year`:
Go's `daysSinceEpoch` 400/100/4-year staged computation, re-anchored from
Go's absolute epoch to year 1 (both epochs start a 400-year cycle at a
year `≡ 1 (mod 400)`, so the stage arithmetic is identical). -/
def daysToYear (year : Int) : Int :=
  146097 * ((year - 1) / 400)
    + 36524 * ((year - 1) % 400 / 100)
    + 1461 * ((year - 1) % 400 % 100 / 4)
    + 365 * ((year - 1) % 400 % 100 % 4)

/-- Day index (days since 0001-01-01) of a civil date: the day computation
of Go `time.Date` — days to the year, plus `daysBefore[month-1]`, plus one
for a leap day if the month is past February in a leap year, plus
`day - 1`.  The month is 1..12 at every use site; the day may be out of
range (`AddDate` feeds `day ± 1`), which `time.Date` absorbs
arithmetically exactly as this formula does. -/
def daysOfDate (year month day : Int) : Int :=
  daysToYear year + daysBefore (month - 1)
    + (if isLeap year ∧ 3 ≤ month then 1 else 0) + day - 1

/-- Stage 1 of Go `absDate`: completed 400-year cycles. -/
def eraN (d : Int) : Int := d / 146097

/-- Remaining days inside the 400-year cycle, in `[0, 146096]`. -/
def eraD (d : Int) : Int := d - 146097 * eraN d

/-- Stage 2 of Go `absDate`: completed centuries, the raw quotient clamped
from 4 to 3 by Go's `n -= n >> 2`. -/
def cenN (d : Int) : Int := eraD d / 36524 - eraD d / 36524 / 4

/-- Remaining days inside the century, in `[0, 36524]`. -/
def cenD (d : Int) : Int := eraD d - 36524 * cenN d

/-- Stage 3 of Go `absDate`: completed 4-year cycles. -/
def quadN (d : Int) : Int := cenD d / 1461

/-- Remaining days inside the 4-year cycle, in `[0, 1460]`. -/
def quadD (d : Int) : Int := cenD d - 1461 * quadN d

/-- Stage 4 of Go `absDate`: completed years inside the 4-year cycle, the
raw quotient clamped from 4 to 3 by Go's `n -= n >> 2`. -/
def yrN (d : Int) : Int := quadD d / 365 - quadD d / 365 / 4

/-- Day of year (0-based) of a day index. -/
def ydayOf (d : Int) : Int := quadD d - 365 * yrN d

/-- The year containing a day index (day 0 lies in year 1). -/
def yearOf (d : Int) : Int := 400 * eraN d + 100 * cenN d + 4 * quadN d + yrN d + 1

/-- Month estimation of Go `absDate` for a common-year day-of-year:
guess `day / 31`, then correct upward by one month if the guess's
month-end lies at or before `day`.  Returns the 1-based month and the
1-based day of month. -/
def monthDayCommon (day : Int) : Int × Int :=
  let m0 := day / 31
  if daysBefore (m0 + 1) ≤ day then (m0 + 2, day - daysBefore (m0 + 1) + 1)
  else (m0 + 1, day - daysBefore m0 + 1)

/-- Month/day-of-month from a day-of-year (Go `absDate`): in a leap year,
day 59 is February 29, and days after it are shifted down by one before
the common-year lookup. -/
def ydayToMonthDay (leap : Bool) (yd : Int) : Int × Int :=
  if leap then
    if 59 < yd then monthDayCommon (yd - 1)
    else if yd = 59 then (2, 29)
    else monthDayCommon yd
  else monthDayCommon yd

/-- Full civil date (year, month, day) from a day index (Go `absDate`). -/
def dateOfDays (d : Int) : Int × Int × Int :=
  let md := ydayToMonthDay (isLeap (yearOf d)) (ydayOf d)
  (yearOf d, md.1, md.2)

/-! ## Instants, JST accessors, `AddDate`, and the day window

An instant (`time.Time`) is its Unix second count.  All civil accessors
are taken in the fixed JST zone `time.FixedZone("Asia/Tokyo", 9*60*60)`
built by `handleDayStatsCommand`. -/

/-- The fixed JST offset in seconds. -/
def jstOffset : Int := 9 * 60 * 60

/-- Day index of the Unix epoch 1970-01-01 since 0001-01-01. -/
def unixEpochDays : Int := 719162

/-- JST day index (days since 0001-01-01) of an instant. -/
def dayNumberJ (t : Int) : Int := (t + jstOffset) / 86400 + unixEpochDays

/-- JST second-of-day of an instant. -/
def secOfDayJ (t : Int) : Int := (t + jstOffset) % 86400

/-- `t.Hour()` in JST. -/
def hourJ (t : Int) : Int := secOfDayJ t / 3600

/-- `t.Minute()` in JST. -/
def minJ (t : Int) : Int := secOfDayJ t % 3600 / 60

/-- `t.Second()` in JST. -/
def secJ (t : Int) : Int := secOfDayJ t % 60

/-- `t.Date()` in JST: the civil year/month/day of the instant. -/
def ymdJ (t : Int) : Int × Int × Int := dateOfDays (dayNumberJ t)

/-- `time.Date(y, m, dd, hh, mi, ss, 0, jst).Unix()`. -/
def dateUnix (y m dd hh mi ss : Int) : Int :=
  (daysOfDate y m dd - unixEpochDays) * 86400 + 3600 * hh + 60 * mi + ss - jstOffset

/-- `t.AddDate(0, 0, k)` in JST: Go rebuilds the instant from `t`'s civil
components with the day shifted by `k`. -/
def addDateDays (t k : Int) : Int :=
  dateUnix (ymdJ t).1 (ymdJ t).2.1 ((ymdJ t).2.2 + k) (hourJ t) (minJ t) (secJ t)

/-- Go `daysIn(m, year)`: number of days of month `m` in `year`. -/
def daysIn (m year : Int) : Int :=
  if m = 2 ∧ isLeap year then 29 else daysBefore m - daysBefore (m - 1)

/-- Numeric value of a decimal digit character. -/
def digitVal (c : Char) : Int := (c.toNat : Int) - 48

/-- `time.ParseInLocation("20060102", s, jst)`, reduced to the civil date
it yields: exactly eight digits, month 1..12, day 1..`daysIn` (Go's parser
rejects out-of-range months and days). -/
def parseYYYYMMDD (s : String) : Option (Int × Int × Int) :=
  match s.data with
  | [c1, c2, c3, c4, c5, c6, c7, c8] =>
    if c1.isDigit ∧ c2.isDigit ∧ c3.isDigit ∧ c4.isDigit
        ∧ c5.isDigit ∧ c6.isDigit ∧ c7.isDigit ∧ c8.isDigit then
      let y := 1000 * digitVal c1 + 100 * digitVal c2 + 10 * digitVal c3 + digitVal c4
      let m := 10 * digitVal c5 + digitVal c6
      let dd := 10 * digitVal c7 + digitVal c8
      if 1 ≤ m ∧ m ≤ 12 ∧ 1 ≤ dd ∧ dd ≤ daysIn m y then some (y, m, dd) else none
    else none
  | _ => none

/-- The day-window computation of `handleDayStatsCommand`: the target date
is the parsed explicit argument (a midnight-JST instant) or `now`, shifted
one day back when `now.Hour() < 5`; the window then runs from the target
date's 05:00 JST to the next day's 05:00 JST (`startTime.AddDate(0,0,1)`),
end exclusive. -/
def dayWindow (dateArg : Option (Int × Int × Int)) (now : Int) : Int × Int :=
  let targetDate : Int :=
    match dateArg with
    | some (y, m, dd) => dateUnix y m dd 0 0 0
    | none => if hourJ now < 5 then addDateDays now (-1) else now
  let t := ymdJ targetDate
  let startT := dateUnix t.1 t.2.1 t.2.2 5 0 0
  (startT, addDateDays startT 1)

/-! ## Rank ordering model (`getRankValues`, `PlayerRankInfo`, sorting) -/

/-- Model of Go `strings.ToUpper`, restricted to ASCII letters (the whole
rank vocabulary is ASCII; on ASCII Go's Unicode mapping agrees with
`Char.toUpper`). -/
def goToUpper (s : String) : String := String.mk (s.data.map Char.toUpper)

/-- Go `strings.ToLower`, same ASCII restriction. -/
def goToLower (s : String) : String := String.mk (s.data.map Char.toLower)

/-- The `tierMap` literal of `getRankValues`, with Go's zero value `0` for
a missing key. -/
def tierValueU (s : String) : Int :=
  if s = "CHALLENGER" then 10
  else if s = "GRANDMASTER" then 9
  else if s = "MASTER" then 8
  else if s = "DIAMOND" then 7
  else if s = "EMERALD" then 6
  else if s = "PLATINUM" then 5
  else if s = "GOLD" then 4
  else if s = "SILVER" then 3
  else if s = "BRONZE" then 2
  else if s = "IRON" then 1
  else if s = "UNRANKED" then 0
  else 0

/-- The `rankMap` literal of `getRankValues`, with Go's zero value `0` for
a missing key. -/
def rankValueU (s : String) : Int :=
  if s = "I" then 4
  else if s = "II" then 3
  else if s = "III" then 2
  else if s = "IV" then 1
  else if s = "" then 0
  else 0

/-- `getRankValues(tier, rank)`: both labels are upper-cased, then looked
up with default `0`. -/
def getRankValues (tier rank : String) : Int × Int :=
  (tierValueU (goToUpper tier), rankValueU (goToUpper rank))

/-- The tier vocabulary, listed from lowest to highest. -/
def knownTiers : List String :=
  ["UNRANKED", "IRON", "BRONZE", "SILVER", "GOLD", "PLATINUM", "EMERALD",
   "DIAMOND", "MASTER", "GRANDMASTER", "CHALLENGER"]

/-- The division vocabulary, listed from lowest to highest. -/
def knownDivisions : List String := ["", "IV", "III", "II", "I"]

/-- `PlayerRankInfo` of `main.go`. -/
structure PlayerRankInfo where
  RiotID : String
  Tier : String
  Rank : String
  LeaguePoints : Int
  TierValue : Int
  RankValue : Int
deriving DecidableEq, Repr

/-- The result synthesized for a player with no ranked-solo league entry:
`Tier = "UNRANKED"`, `TierValue = RankValue = -1`, `0` LP. -/
def unrankedInfo (riotID : String) : PlayerRankInfo :=
  { RiotID := riotID, Tier := "UNRANKED", Rank := "", LeaguePoints := 0,
    TierValue := -1, RankValue := -1 }

/-- The result built from a ranked-solo league entry's tier/rank/LP. -/
def rankedInfo (riotID tier rank : String) (lp : Int) : PlayerRankInfo :=
  { RiotID := riotID, Tier := tier, Rank := rank, LeaguePoints := lp,
    TierValue := (getRankValues tier rank).1,
    RankValue := (getRankValues tier rank).2 }

/-- The comparator closure passed to `sort.SliceStable`: tier value
descending, then rank value descending, then league points descending. -/
def rankLess (a b : PlayerRankInfo) : Bool :=
  if a.TierValue ≠ b.TierValue then decide (b.TierValue < a.TierValue)
  else if a.RankValue ≠ b.RankValue then decide (b.RankValue < a.RankValue)
  else decide (b.LeaguePoints < a.LeaguePoints)

/-- The sort key `(tier value, rank value, LP)` of a player result. -/
def rankKey (p : PlayerRankInfo) : Int × Int × Int :=
  (p.TierValue, p.RankValue, p.LeaguePoints)

/-- Strict lexicographic order on sort keys. -/
def keyLt (x y : Int × Int × Int) : Prop :=
  x.1 < y.1 ∨ (x.1 = y.1 ∧ (x.2.1 < y.2.1 ∨ (x.2.1 = y.2.1 ∧ x.2.2 < y.2.2)))

/-- The non-strict order under which a stable sort realises
`sort.SliceStable(playerRanks, less)`: `a` may stay before `b` iff `b` is
not strictly `less` than `a`. -/
def rankLe (a b : PlayerRankInfo) : Bool := ! rankLess b a

/-- `sort.SliceStable(playerRanks, less)`: `less` is a strict weak order,
so the stable-sorted permutation is unique and a stable merge sort over
`rankLe` computes exactly it. -/
def sortPlayerRanks (l : List PlayerRankInfo) : List PlayerRankInfo :=
  l.mergeSort rankLe

/-! ## DTOs and the remote-call oracle -/

/-- `AccountDTO`. -/
structure AccountDTO where
  puuid : String
  gameName : String
  tagLine : String
deriving DecidableEq, Repr

/-- `SummonerDTO`. -/
structure SummonerDTO where
  id : String
  accountId : String
  puuid : String
  name : String
deriving DecidableEq, Repr

/-- `LeagueEntryDTO`. -/
structure LeagueEntryDTO where
  leagueId : String
  summonerId : String
  summonerName : String
  queueType : String
  tier : String
  rank : String
  leaguePoints : Int
  wins : Int
  losses : Int
  hotStreak : Bool
  veteran : Bool
  freshBlood : Bool
  inactive : Bool
deriving DecidableEq, Repr

/-- `ParticipantDTO`. -/
structure ParticipantDTO where
  puuid : String
  summonerName : String
  win : Bool
  teamId : Int
deriving DecidableEq, Repr

/-- `MatchDTO.Info`. -/
structure MatchInfoDTO where
  gameCreation : Int
  gameDuration : Int
  gameEndTimestamp : Int
  gameMode : String
  gameType : String
  queueId : Int
  participants : List ParticipantDTO
deriving DecidableEq, Repr

/-- `MatchDTO` (metadata plus info). -/
structure MatchDTO where
  metaMatchId : String
  metaParticipants : List String
  info : MatchInfoDTO
deriving DecidableEq, Repr

/-- Oracle for the five remote endpoints; `none` models any failure
(network error, non-2xx status, undecodable body). -/
structure Env where
  account : String → String → Option AccountDTO
  summoner : String → Option SummonerDTO
  leagueEntries : String → Option (List LeagueEntryDTO)
  matchIds : String → Int → Int → Option (List String)
  matchDetails : String → Option MatchDTO

/-! ## String helpers mirroring Go's `strings` package -/

/-- `strings.Split` on a single-character separator, at the level of
character lists: `splitChar sep "" = [""]`, separators produce empty
fields. -/
def splitChar (sep : Char) : List Char → List (List Char)
  | [] => [[]]
  | c :: cs =>
    let r := splitChar sep cs
    if c = sep then [] :: r
    else
      match r with
      | [] => [[c]]
      | h :: t => (c :: h) :: t

/-- `strings.Split(s, sep)` for a one-character separator. -/
def goSplit (sep : Char) (s : String) : List String :=
  (splitChar sep s.data).map String.mk

/-- `strings.Join` for a one-character separator, character-list level. -/
def joinChar (sep : Char) : List (List Char) → List Char
  | [] => []
  | [l] => l
  | l :: ls => l ++ sep :: joinChar sep ls

/-- `strings.Join(ls, sep)` for a one-character separator. -/
def goJoin (sep : Char) (ls : List String) : String :=
  String.mk (joinChar sep (ls.map String.data))

/-- `pre` is a prefix of `s` (character lists). -/
def listStartsWith : List Char → List Char → Bool
  | [], _ => true
  | _ :: _, [] => false
  | p :: ps, c :: cs => p == c && listStartsWith ps cs

/-- `strings.HasPrefix(s, pre)`. -/
def goStartsWith (s pre : String) : Bool := listStartsWith pre.data s.data

/-- `strings.TrimRight(s, "\n")`: drop every trailing newline. -/
def trimRightNl (s : String) : String :=
  String.mk (s.data.reverse.dropWhile (fun c => c == '\n')).reverse

/-- First-occurrence split: `some (before, after)` around the first `sep`,
or `none` when `sep` does not occur. -/
def splitFirst (sep : Char) : List Char → Option (List Char × List Char)
  | [] => none
  | c :: cs =>
    if c = sep then some ([], cs)
    else (splitFirst sep cs).map (fun r => (c :: r.1, r.2))

/-- `strings.SplitN(s, sep, 2)` for a one-character separator. -/
def goSplitN2 (sep : Char) (s : String) : List String :=
  match splitFirst sep s.data with
  | none => [s]
  | some (a, b) => [String.mk a, String.mk b]

/-! ## Leaderboard aggregation (`!ranking` branch of `messageCreate`) -/

/-- One iteration of the `!ranking` player loop: split the raw id on `#`
(skip unless exactly two parts), resolve account, summoner and league
entries (skip on any failure), then take the first `RANKED_SOLO_5x5`
entry, or synthesize an unranked result when none exists. -/
def processPlayer (env : Env) (raw : String) : Option PlayerRankInfo :=
  match goSplit '#' raw with
  | [gameName, tagLine] =>
    match env.account gameName tagLine with
    | none => none
    | some account =>
      match env.summoner account.puuid with
      | none => none
      | some summ =>
        match env.leagueEntries summ.id with
        | none => none
        | some entries =>
          match entries.find? (fun e => e.queueType == "RANKED_SOLO_5x5") with
          | some entry => some (rankedInfo raw entry.tier entry.rank entry.leaguePoints)
          | none => some (unrankedInfo raw)
  | _ => none

/-- The `playerRanks` slice collected by the `!ranking` loop. -/
def collectPlayerRanks (env : Env) (roster : List String) : List PlayerRankInfo :=
  roster.filterMap (processPlayer env)

/-- Hexadecimal digit (upper case), for percent escaping. -/
def hexDigit (n : Nat) : Char := if n < 10 then Char.ofNat (48 + n) else Char.ofNat (55 + n)

/-- UTF-8 bytes of a character. -/
def utf8Bytes (c : Char) : List Nat :=
  let n := c.toNat
  if n < 128 then [n]
  else if n < 2048 then [192 + n / 64, 128 + n % 64]
  else if n < 65536 then [224 + n / 4096, 128 + n / 64 % 64, 128 + n % 64]
  else [240 + n / 262144, 128 + n / 4096 % 64, 128 + n / 64 % 64, 128 + n % 64]

/-- The characters `url.PathEscape` leaves unescaped in a path segment:
ASCII alphanumerics, the unreserved marks `-_.~`, and the sub-delimiters
`$&+:=@` (Go escapes `/`, `;`, `,` and `?` inside a segment). -/
def pathSegSafe (c : Char) : Bool :=
  (97 ≤ c.toNat && c.toNat ≤ 122) || (65 ≤ c.toNat && c.toNat ≤ 90)
    || (48 ≤ c.toNat && c.toNat ≤ 57)
    || c == '-' || c == '_' || c == '.' || c == '~'
    || c == '$' || c == '&' || c == '+' || c == ':' || c == '=' || c == '@'

/-- `url.PathEscape`. -/
def pathEscape (s : String) : String :=
  String.mk (s.data.flatMap (fun c =>
    if pathSegSafe c then [c]
    else (utf8Bytes c).flatMap (fun b => ['%', hexDigit (b / 16), hexDigit (b % 16)])))

/-- Go `strings.Title` (ASCII): upper-case a letter that follows a
non-letter. -/
def titleChars : Bool → List Char → List Char
  | _, [] => []
  | prevLetter, c :: cs =>
    (if prevLetter then c else c.toUpper) :: titleChars c.isAlpha cs

/-- `strings.Title(s)` restricted to ASCII. -/
def goTitle (s : String) : String := String.mk (titleChars false s.data)

/-- The OP.GG link built from a raw riot id (empty unless the id splits in
exactly two parts). -/
def opggLink (riotID : String) : String :=
  match goSplit '#' riotID with
  | [n, t] => "https://www.op.gg/summoners/jp/" ++ pathEscape n ++ "-" ++ pathEscape t
  | _ => ""

/-- The rendered line for position `i` (0-based; shown 1-based). -/
def renderPlayerLine (i : Nat) (pr : PlayerRankInfo) : String :=
  let link := opggLink pr.RiotID
  if pr.Tier = "UNRANKED" then
    if ¬ link = "" then
      "**" ++ toString (i + 1) ++ "位**： [`" ++ pr.RiotID ++ "`](<" ++ link
        ++ ">) (UNRANKED)"
    else
      "**" ++ toString (i + 1) ++ "位**： `" ++ pr.RiotID ++ "` (UNRANKED)"
  else
    if ¬ link = "" then
      "**" ++ toString (i + 1) ++ "位**： [`" ++ pr.RiotID ++ "`](<" ++ link
        ++ ">) (**" ++ goTitle (goToLower pr.Tier) ++ " " ++ pr.Rank ++ "** "
        ++ toString pr.LeaguePoints ++ "LP)"
    else
      "**" ++ toString (i + 1) ++ "位**： `" ++ pr.RiotID ++ "` (**"
        ++ goTitle (goToLower pr.Tier) ++ " " ++ pr.Rank ++ "** "
        ++ toString pr.LeaguePoints ++ "LP)"

/-- The per-player lines of the `!ranking` output (everything after the
title line): the collected results, stably sorted, rendered with 1-based
positions. -/
def rankingPlayerLines (env : Env) (roster : List String) : List String :=
  (sortPlayerRanks (collectPlayerRanks env roster)).mapIdx renderPlayerLine

/-- The full `rankedMessages` list: title line plus player lines. -/
def rankingMessages (env : Env) (roster : List String) : List String :=
  "**LOLプレイヤーランキング** :trophy:" :: rankingPlayerLines env roster

/-! ## Day-window tally (`handleDayStatsCommand`) -/

/-- The inner participant loop of the tally: first participant whose PUUID
matches, then `break`. -/
def findParticipant (puuid : String) : List ParticipantDTO → Option ParticipantDTO
  | [] => none
  | p :: ps => if p.puuid = puuid then some p else findParticipant puuid ps

/-- Tally of a single fetched match: convert `gameCreation` from
milliseconds to Unix seconds (truncating `int64` division), re-check that
it lies in `[start, end)` and that the queue id is the ranked-solo id
`420`, then bump the winner's or loser's counter according to the matching
participant's win flag. -/
def tallyMatch (puuid : String) (startU endU : Int) (md : MatchDTO)
    (wl : Int × Int) : Int × Int :=
  let matchTimeUnix := md.info.gameCreation.tdiv 1000
  if startU ≤ matchTimeUnix ∧ matchTimeUnix < endU ∧ md.info.queueId = 420 then
    match findParticipant puuid md.info.participants with
    | some p => if p.win then (wl.1 + 1, wl.2) else (wl.1, wl.2 + 1)
    | none => wl
  else wl

/-- The per-match loop of `handleDayStatsCommand`: a failed detail fetch
is logged and skipped, a fetched match goes through `tallyMatch`. -/
def tallyMatches (env : Env) (puuid : String) (startU endU : Int) :
    List String → Int × Int → Int × Int
  | [], wl => wl
  | id :: rest, wl =>
    match env.matchDetails id with
    | none => tallyMatches env puuid startU endU rest wl
    | some md => tallyMatches env puuid startU endU rest (tallyMatch puuid startU endU md wl)

/-! ## Outbound-call traces (throttling discipline) -/

/-- An outbound remote call, by endpoint and arguments. -/
inductive ApiCall where
  | account (gameName tagLine : String)
  | summoner (puuid : String)
  | leagueEntries (summonerId : String)
  | matchIds (puuid : String) (startU endU : Int)
  | matchDetails (matchId : String)
deriving DecidableEq, Repr

/-- A trace event: a `time.Sleep(apiRequestDelay)` (1.2 s) or an outbound
call. -/
inductive Event where
  | sleep
  | call (c : ApiCall)
deriving DecidableEq, Repr

/-- The events of one `!ranking` (and identically one `!rank`) loop
iteration: sleep, then account; on success sleep, then summoner; on
success sleep, then league entries.  Parse failures skip before any
call. -/
def playerLoopTrace (env : Env) (raw : String) : List Event :=
  Event.sleep ::
    (match goSplit '#' raw with
     | [gameName, tagLine] =>
       Event.call (ApiCall.account gameName tagLine) ::
         (match env.account gameName tagLine with
          | none => []
          | some account =>
            Event.sleep :: Event.call (ApiCall.summoner account.puuid) ::
              (match env.summoner account.puuid with
               | none => []
               | some summ =>
                 [Event.sleep, Event.call (ApiCall.leagueEntries summ.id)]))
     | _ => [])

/-- The outbound-call trace of the `!ranking` command over a roster (the
`!rank` command produces the same shape over its argument list). -/
def rankingTrace (env : Env) (roster : List String) : List Event :=
  roster.flatMap (playerLoopTrace env)

/-- The outbound-call trace of `!daystats` after local validation: the
account call (no sleep before it), the match-id call (no sleep before
it), then — if the id list is non-empty — a sleep before each per-match
detail call. -/
def dayStatsTrace (env : Env) (riotID : String)
    (dateArg : Option (Int × Int × Int)) (now : Int) : List Event :=
  match goSplit '#' riotID with
  | [gameName, tagLine] =>
    let w := dayWindow dateArg now
    Event.call (ApiCall.account gameName tagLine) ::
      (match env.account gameName tagLine with
       | none => []
       | some account =>
         Event.call (ApiCall.matchIds account.puuid w.1 w.2) ::
           (match env.matchIds account.puuid w.1 w.2 with
            | none => []
            | some ids =>
              ids.flatMap (fun id => [Event.sleep, Event.call (ApiCall.matchDetails id)])))
  | _ => []

/-- The outbound-call trace of `!add arg`: after the local format and
duplicate checks, the verification call — with no sleep before it. -/
def addTrace (_env : Env) (roster : List String) (arg : String) : List Event :=
  if arg = "" then []
  else
    match goSplit '#' arg with
    | [gameName, tagLine] =>
      if gameName = "" ∨ tagLine = "" then []
      else if roster.contains arg then []
      else [Event.call (ApiCall.account gameName tagLine)]
    | _ => []

/-- Every call event selected by `tgt` is immediately preceded by a sleep
event; `prev` is the event before the list (if any). -/
def callsDelayedOn (tgt : ApiCall → Bool) : Option Event → List Event → Bool
  | _, [] => true
  | prev, e :: rest =>
    (match e with
     | Event.call c => ! tgt c || decide (prev = some Event.sleep)
     | Event.sleep => true) && callsDelayedOn tgt (some e) rest

/-- The claimed throttling discipline: the fixed delay immediately
precedes every outbound call of the trace. -/
def delayBeforeEveryCall (tr : List Event) : Bool :=
  callsDelayedOn (fun _ => true) none tr

/-- Selects the per-match detail calls. -/
def isDetailCall : ApiCall → Bool
  | ApiCall.matchDetails _ => true
  | _ => false

/-! ## Roster store (`updateEnvFile`, `addPlayerToEnvFile`) -/

/-- The line scan of `updateEnvFile`: replace the first line with prefix
`key=` by `key=value`; report whether one was found. -/
def replaceKeyLine (key value : String) : List String → Bool × List String
  | [] => (false, [])
  | line :: rest =>
    if goStartsWith line (key ++ "=") then (true, (key ++ "=" ++ value) :: rest)
    else
      let r := replaceKeyLine key value rest
      (r.1, line :: r.2)

/-- The line-level update of `updateEnvFile`: replace the first `key=`
line, or — when none is found — append the `key=value` entry, re-using a
trailing empty line exactly as the Go code does. -/
def updLines (key value : String) (lines : List String) : List String :=
  let r := replaceKeyLine key value lines
  if r.1 then r.2
  else
    match lines.getLast? with
    | some z =>
      if z = "" then
        if 1 < lines.length then lines.dropLast ++ [key ++ "=" ++ value, ""]
        else [key ++ "=" ++ value, ""]
      else lines ++ [key ++ "=" ++ value]
    | none => lines ++ [key ++ "=" ++ value]

/-- `updateEnvFile(key, value)` applied to the store content (`none` =
file absent): create `key=value\n` when absent; otherwise split into
lines, update them, join, and normalise the tail to a single final
newline (`strings.TrimRight(output, "\n") + "\n"`). -/
def updateEnvFile (key value : String) (content : Option String) : String :=
  match content with
  | none => key ++ "=" ++ value ++ "\n"
  | some input =>
    trimRightNl (goJoin '\n' (updLines key value (goSplit '\n' input))) ++ "\n"

/-- A frame line of the store relative to `key`: a line that is neither
the `key=` line being updated nor an empty line (the trailing-newline
normalisation only ever touches empty lines). -/
def isFrameLine (key l : String) : Bool :=
  !(goStartsWith l (key ++ "=")) && !(l == "")

/-- Remove the trailing run of empty strings from a list of lines (what
the final `TrimRight`-then-newline normalisation does to the line
list). -/
def dropTrailBlank : List String → List String
  | [] => []
  | x :: xs =>
    match dropTrailBlank xs with
    | [] => if x = "" then [] else [x]
    | ys => x :: ys

/-- The read path of `addPlayerToEnvFile`: current players from the first
`LOL_PLAYERS=` line (comma separated; an empty value yields none). -/
def extractPlayers : List String → List String
  | [] => []
  | line :: rest =>
    if goStartsWith line "LOL_PLAYERS=" then
      match goSplitN2 '=' line with
      | [_, v] => if ¬ v = "" then goSplit ',' v else []
      | _ => []
    else extractPlayers rest

/-- The players recorded in a store content. -/
def rosterPlayers (content : String) : List String :=
  extractPlayers (goSplit '\n' content)

/-- The players recorded in a possibly-absent store. -/
def rosterPlayersOpt : Option String → List String
  | none => []
  | some s => rosterPlayers s

/-- `addPlayerToEnvFile(newPlayer)` applied to the store content: absent
file delegates to `updateEnvFile`; a player already in the list is a
no-op (nothing is written); otherwise append, drop empty entries, and
upsert the comma-joined list. -/
def addPlayerToEnvFile (newPlayer : String) (content : Option String) : String :=
  match content with
  | none => updateEnvFile "LOL_PLAYERS" newPlayer none
  | some input =>
    let currentPlayers := extractPlayers (goSplit '\n' input)
    if currentPlayers.contains newPlayer then input
    else
      let cleaned := (currentPlayers ++ [newPlayer]).filter (fun p => ¬ p = "")
      updateEnvFile "LOL_PLAYERS" (goJoin ',' cleaned) (some input)

/-! ## The `!add` handler (`messageCreate`, atomicity of the roster) -/

/-- Result of one `!add` invocation: chat replies, the in-memory
`lolPlayersEnv` roster, and the store content. -/
structure AddResult where
  messages : List String
  roster : List String
  content : Option String
deriving DecidableEq, Repr

/-- The success reply of `!add`. -/
def addSuccessMsg (arg : String) : String :=
  "`" ++ arg ++ "` をランキングリストに追加しました。"

/-- The `!add` branch of `messageCreate`, with the store write modelled by
the `writeOk` oracle (Go's `os.WriteFile` error): validate the argument,
reject duplicates, verify the account remotely, persist, and only after a
successful write extend the in-memory roster and reply with success. -/
def addHandler (env : Env) (roster : List String) (content : Option String)
    (writeOk : Bool) (arg : String) : AddResult :=
  if arg = "" then
    ⟨["追加するRiot IDを指定してください (例: !add GameName#TagLine)"], roster, content⟩
  else
    match goSplit '#' arg with
    | [gameName, tagLine] =>
      if gameName = "" ∨ tagLine = "" then
        ⟨["Riot IDの形式が正しくありません (例: GameName#TagLine)"], roster, content⟩
      else if roster.contains arg then
        ⟨["`" ++ arg ++ "` は既に追加されています。"], roster, content⟩
      else
        match env.account gameName tagLine with
        | none =>
          ⟨["`" ++ arg ++ "` のアカウント情報を確認できませんでした。Riot IDが正しいか確認してください。"],
           roster, content⟩
        | some _ =>
          if writeOk then
            ⟨[addSuccessMsg arg], roster ++ [arg], some (addPlayerToEnvFile arg content)⟩
          else
            ⟨["`" ++ arg ++ "` の追加中にエラーが発生しました。"], roster, content⟩
    | _ => ⟨["Riot IDの形式が正しくありません (例: GameName#TagLine)"], roster, content⟩

/-- The last event of `l`, or `prev` when `l` is empty (the event that
precedes a suffix in a concatenated trace). -/
def lastOr (prev : Option Event) : List Event → Option Event
  | [] => prev
  | e :: t => lastOr (some e) t

/-- A concrete match at the window start with queue 420. -/
def mdW : MatchDTO :=
  ⟨"JP1_1", ["P1"],
   ⟨1704052800000, 1800, 1704054600000, "CLASSIC", "MATCHED_GAME", 420,
    [⟨"P1", "alice", true, 100⟩]⟩⟩

/-- A concrete oracle under which `Alice#JP1` and `Carol#JP3` resolve (to
no ranked entry) while `Bob#JP2` fails account resolution. -/
def envC6 : Env where
  account := fun gn tl =>
    if gn = "Alice" ∧ tl = "JP1" then some ⟨"puA", "Alice", "JP1"⟩
    else if gn = "Carol" ∧ tl = "JP3" then some ⟨"puC", "Carol", "JP3"⟩
    else none
  summoner := fun pu => some ⟨"sid-" ++ pu, "aid", pu, "name"⟩
  leagueEntries := fun _ => some []
  matchIds := fun _ _ _ => none
  matchDetails := fun _ => none

/-- A concrete oracle whose account call succeeds and whose match-id call
returns one id, exhibiting the `!daystats` trace. -/
def envC7 : Env where
  account := fun _ _ => some ⟨"puN", "N", "T"⟩
  summoner := fun _ => none
  leagueEntries := fun _ => none
  matchIds := fun _ _ _ => some ["JP1_100"]
  matchDetails := fun _ => none

theorem isLeap_iff (y : Int) :
    isLeap y = true ↔ (y % 4 = 0 ∧ (¬ y % 100 = 0 ∨ y % 400 = 0)) := by
  simp [isLeap]

/-- The staged year extraction recovers the day index, and the day of year
is in range — 0..364 in a common year, 0..365 in a leap year. -/
theorem yearYday_spec (d : Int) :
    daysToYear (yearOf d) + ydayOf d = d
    ∧ 0 ≤ ydayOf d
    ∧ (ydayOf d ≤ 364 ∨ (ydayOf d = 365 ∧ isLeap (yearOf d) = true)) := by
  have h1 : eraN d = d / 146097 := rfl
  have h2 : eraD d = d - 146097 * eraN d := rfl
  have h3 : cenN d = eraD d / 36524 - eraD d / 36524 / 4 := rfl
  have h4 : cenD d = eraD d - 36524 * cenN d := rfl
  have h5 : quadN d = cenD d / 1461 := rfl
  have h6 : quadD d = cenD d - 1461 * quadN d := rfl
  have h7 : yrN d = quadD d / 365 - quadD d / 365 / 4 := rfl
  have h8 : ydayOf d = quadD d - 365 * yrN d := rfl
  have h9 : yearOf d = 400 * eraN d + 100 * cenN d + 4 * quadN d + yrN d + 1 := rfl
  have hday : daysToYear (yearOf d) =
      146097 * ((yearOf d - 1) / 400)
      + 36524 * ((yearOf d - 1) % 400 / 100)
      + 1461 * ((yearOf d - 1) % 400 % 100 / 4)
      + 365 * ((yearOf d - 1) % 400 % 100 % 4) := rfl
  have hb1 : 0 ≤ eraD d ∧ eraD d ≤ 146096 := by omega
  have hb2 : (0 ≤ cenN d ∧ cenN d ≤ 3) ∧ 0 ≤ cenD d ∧ cenD d ≤ 36524 := by omega
  have hb3 : (0 ≤ quadN d ∧ quadN d ≤ 24) ∧ 0 ≤ quadD d ∧ quadD d ≤ 1460 := by omega
  have hb4 : (0 ≤ yrN d ∧ yrN d ≤ 3) ∧ 0 ≤ ydayOf d ∧ ydayOf d ≤ 365 := by omega
  have hrec : d = 146097 * eraN d + 36524 * cenN d + 1461 * quadN d
      + 365 * yrN d + ydayOf d := by omega
  have hl1 : ydayOf d = 365 → yrN d = 3 := by omega
  have hl2 : ydayOf d = 365 ∧ quadN d = 24 → cenN d = 3 := by omega
  clear h1 h2 h3 h4 h5 h6 h7 h8
  have hyear : daysToYear (yearOf d) =
      146097 * eraN d + 36524 * cenN d + 1461 * quadN d + 365 * yrN d := by
    rw [hday]; omega
  refine ⟨by omega, by omega, ?_⟩
  by_cases hy : ydayOf d ≤ 364
  · left; exact hy
  · right
    refine ⟨by omega, ?_⟩
    rw [isLeap_iff]
    omega

theorem monthDayCommon_recover (day : Int) :
    daysBefore ((monthDayCommon day).1 - 1) + (monthDayCommon day).2 - 1 = day := by
  unfold monthDayCommon
  simp only
  split
  · simp only
    have h : day / 31 + 2 - 1 = day / 31 + 1 := by ring
    rw [h]
    omega
  · simp only
    have h : day / 31 + 1 - 1 = day / 31 := by ring
    rw [h]
    omega

theorem monthDayCommon_three_le (day : Int) (h : 59 ≤ day) :
    3 ≤ (monthDayCommon day).1 := by
  unfold monthDayCommon
  simp only
  split
  · simp only
    omega
  · next hcond =>
    simp only
    by_cases hm : day / 31 ≤ 1
    · have h1 : day / 31 = 1 := by omega
      rw [h1] at hcond
      norm_num [daysBefore] at hcond
      omega
    · omega

theorem monthDayCommon_le_two (day : Int) (h0 : 0 ≤ day) (h : day ≤ 58) :
    (monthDayCommon day).1 ≤ 2 := by
  unfold monthDayCommon
  simp only
  split
  · next hcond =>
    simp only
    by_cases hm : day / 31 = 0
    · omega
    · have h1 : day / 31 = 1 := by omega
      rw [h1] at hcond
      norm_num [daysBefore] at hcond
      omega
  · simp only
    omega

/-- The month/day extraction recovers the day-of-year under Go `time.Date`'s
forward formula (leap-day adjustment included). -/
theorem ydayToMonthDay_spec (leap : Bool) (yd : Int) (h0 : 0 ≤ yd)
    (h1 : yd ≤ 364 ∨ (yd = 365 ∧ leap = true)) :
    daysBefore ((ydayToMonthDay leap yd).1 - 1)
      + (if leap ∧ 3 ≤ (ydayToMonthDay leap yd).1 then 1 else 0)
      + (ydayToMonthDay leap yd).2 - 1 = yd := by
  cases leap with
  | false =>
    have hr := monthDayCommon_recover yd
    simp only [ydayToMonthDay, Bool.false_eq_true, false_and, if_false]
    omega
  | true =>
    simp only [ydayToMonthDay, if_true]
    by_cases h59 : 59 < yd
    · rw [if_pos h59]
      have hr := monthDayCommon_recover (yd - 1)
      have h3 := monthDayCommon_three_le (yd - 1) (by omega)
      rw [if_pos (And.intro (by trivial) h3)]
      omega
    · rw [if_neg h59]
      by_cases he : yd = 59
      · rw [if_pos he]
        norm_num [daysBefore]
        omega
      · rw [if_neg he]
        have hr := monthDayCommon_recover yd
        have h2 := monthDayCommon_le_two yd h0 (by omega)
        rw [if_neg (by intro hcon; omega)]
        omega

/-- Round trip: converting a day index to a civil date and back with Go
`time.Date`'s day formula is the identity — the key fact that makes
`AddDate(0, 0, k)` a shift by exactly `k` days in a fixed zone. -/
theorem daysOfDate_dateOfDays (d : Int) :
    daysOfDate (dateOfDays d).1 (dateOfDays d).2.1 (dateOfDays d).2.2 = d := by
  obtain ⟨ha, hb, hc⟩ := yearYday_spec d
  have hspec := ydayToMonthDay_spec (isLeap (yearOf d)) (ydayOf d) hb hc
  show daysToYear (yearOf d)
      + daysBefore ((ydayToMonthDay (isLeap (yearOf d)) (ydayOf d)).1 - 1)
      + (if isLeap (yearOf d) ∧ 3 ≤ (ydayToMonthDay (isLeap (yearOf d)) (ydayOf d)).1
         then 1 else 0)
      + (ydayToMonthDay (isLeap (yearOf d)) (ydayOf d)).2 - 1 = d
  omega

theorem dateUnix_day_add (y m dd k hh mi ss : Int) :
    dateUnix y m (dd + k) hh mi ss = dateUnix y m dd hh mi ss + 86400 * k := by
  simp only [dateUnix, daysOfDate]
  ring

/-- In a fixed zone, `AddDate(0, 0, k)` shifts the instant by exactly
`86400 * k` seconds. -/
theorem addDateDays_eq (t k : Int) : addDateDays t k = t + 86400 * k := by
  have h1 : addDateDays t k
      = (daysOfDate (ymdJ t).1 (ymdJ t).2.1 ((ymdJ t).2.2 + k) - unixEpochDays) * 86400
        + 3600 * hourJ t + 60 * minJ t + secJ t - jstOffset := rfl
  have h2 : daysOfDate (ymdJ t).1 (ymdJ t).2.1 ((ymdJ t).2.2 + k)
      = daysOfDate (ymdJ t).1 (ymdJ t).2.1 (ymdJ t).2.2 + k := by
    simp only [daysOfDate]; ring
  have h3 : daysOfDate (ymdJ t).1 (ymdJ t).2.1 (ymdJ t).2.2 = dayNumberJ t :=
    daysOfDate_dateOfDays (dayNumberJ t)
  have h4 : dayNumberJ t = (t + 32400) / 86400 + 719162 := rfl
  have h5 : hourJ t = (t + 32400) % 86400 / 3600 := rfl
  have h6 : minJ t = (t + 32400) % 86400 % 3600 / 60 := rfl
  have h7 : secJ t = (t + 32400) % 86400 % 60 := rfl
  have h8 : jstOffset = 32400 := rfl
  have h9 : unixEpochDays = 719162 := rfl
  rw [h1, h2, h3]
  omega

/-- The window start built from any target date `T` sits at day number
`dayNumberJ T`, second-of-day 05:00. -/
theorem window_start_eq (T : Int) :
    dateUnix (ymdJ T).1 (ymdJ T).2.1 (ymdJ T).2.2 5 0 0
      = (dayNumberJ T - unixEpochDays) * 86400 + 18000 - jstOffset := by
  have hr : daysOfDate (ymdJ T).1 (ymdJ T).2.1 (ymdJ T).2.2 = dayNumberJ T :=
    daysOfDate_dateOfDays (dayNumberJ T)
  simp only [dateUnix, hr]
  ring

/-! ## Rank-model lemmas -/

theorem char_toUpper_def (c : Char) :
    c.toUpper = if c.toNat ≥ 97 ∧ c.toNat ≤ 122 then Char.ofNat (c.toNat - 32) else c := rfl

theorem char_ofNat_toNat_valid (n : Nat) (h : n < 55296) : (Char.ofNat n).toNat = n := by
  unfold Char.ofNat
  split
  · rfl
  · next hv => exact absurd (Or.inl h) hv

theorem char_toUpper_idem (c : Char) : c.toUpper.toUpper = c.toUpper := by
  by_cases h : c.toNat ≥ 97 ∧ c.toNat ≤ 122
  · rw [char_toUpper_def c, if_pos h]
    have ht : (Char.ofNat (c.toNat - 32)).toNat = c.toNat - 32 :=
      char_ofNat_toNat_valid _ (by omega)
    rw [char_toUpper_def, ht, if_neg (by omega)]
  · rw [char_toUpper_def c, if_neg h, char_toUpper_def c, if_neg h]

theorem goToUpper_idem (s : String) : goToUpper (goToUpper s) = goToUpper s := by
  simp [goToUpper, List.map_map, Function.comp_def, char_toUpper_idem]

theorem tierValueU_nonneg (s : String) : 0 ≤ tierValueU s := by
  unfold tierValueU
  repeat' split
  all_goals omega

theorem tierValueU_zero_of_not_mem (s : String) (h : ¬ s ∈ knownTiers) :
    tierValueU s = 0 := by
  simp only [knownTiers, List.mem_cons, List.not_mem_nil, or_false, not_or] at h
  obtain ⟨h1, h2, h3, h4, h5, h6, h7, h8, h9, h10, h11⟩ := h
  unfold tierValueU
  rw [if_neg h11, if_neg h10, if_neg h9, if_neg h8, if_neg h7, if_neg h6,
      if_neg h5, if_neg h4, if_neg h3, if_neg h2, if_neg h1]

theorem rankValueU_zero_of_not_mem (s : String) (h : ¬ s ∈ knownDivisions) :
    rankValueU s = 0 := by
  simp only [knownDivisions, List.mem_cons, List.not_mem_nil, or_false, not_or] at h
  obtain ⟨h1, h2, h3, h4, h5⟩ := h
  unfold rankValueU
  rw [if_neg h5, if_neg h4, if_neg h3, if_neg h2, if_neg h1]

/-! ## Sorting lemmas -/

theorem rankLess_iff (a b : PlayerRankInfo) :
    rankLess a b = true ↔ keyLt (rankKey b) (rankKey a) := by
  unfold rankLess keyLt rankKey
  split_ifs with h1 h2 <;> simp only [decide_eq_true_eq] <;> constructor <;> intro hx <;> omega

theorem rankLe_iff (a b : PlayerRankInfo) :
    rankLe a b = true ↔ ¬ keyLt (rankKey a) (rankKey b) := by
  unfold rankLe
  rw [Bool.not_eq_true', ← Bool.not_eq_true (rankLess b a)]
  simp [rankLess_iff]

theorem rankLe_trans (a b c : PlayerRankInfo) (h1 : rankLe a b = true)
    (h2 : rankLe b c = true) : rankLe a c = true := by
  rw [rankLe_iff] at *
  unfold keyLt at *
  omega

theorem rankLe_total (a b : PlayerRankInfo) : (rankLe a b || rankLe b a) = true := by
  rw [Bool.or_eq_true, rankLe_iff, rankLe_iff]
  unfold keyLt
  omega

theorem sortPlayerRanks_perm (l : List PlayerRankInfo) : (sortPlayerRanks l).Perm l :=
  List.mergeSort_perm l rankLe

theorem sortPlayerRanks_pairwise (l : List PlayerRankInfo) :
    (sortPlayerRanks l).Pairwise (fun a b => rankLe a b = true) :=
  List.sorted_mergeSort rankLe_trans rankLe_total l

theorem sortPlayerRanks_filter_key (l : List PlayerRankInfo) (k : Int × Int × Int) :
    (sortPlayerRanks l).filter (fun p => decide (rankKey p = k))
      = l.filter (fun p => decide (rankKey p = k)) := by
  have hpw : (l.filter (fun p => decide (rankKey p = k))).Pairwise
      (fun a b => rankLe a b = true) := by
    apply List.pairwise_of_forall_mem_list
    intro a ha b hb
    rw [List.mem_filter] at ha hb
    have hka : rankKey a = k := by simpa using ha.2
    have hkb : rankKey b = k := by simpa using hb.2
    rw [rankLe_iff, hka, hkb]
    unfold keyLt
    omega
  have hsub : (l.filter (fun p => decide (rankKey p = k))).Sublist (sortPlayerRanks l) :=
    List.sublist_mergeSort rankLe_trans rankLe_total hpw (List.filter_sublist l)
  have hsubf := hsub.filter (fun p => decide (rankKey p = k))
  rw [List.filter_filter] at hsubf
  have hff : (fun a => decide (rankKey a = k) && decide (rankKey a = k))
      = (fun a => decide (rankKey a = k)) := funext fun a => Bool.and_self _
  rw [hff] at hsubf
  have hperm := (sortPlayerRanks_perm l).filter (fun p => decide (rankKey p = k))
  exact (hsubf.eq_of_length hperm.length_eq.symm).symm

/-- **C5.**  `sort.SliceStable` with the rank comparator permutes the
collected results, orders them by sort key — tier value descending, then
division value descending, then league points descending (`keyLt` is that
lexicographic order) — and is stable: the players carrying any fixed sort
key appear in the output in exactly their input order. -/
theorem claim_C5_stable_sort (l : List PlayerRankInfo) :
    (sortPlayerRanks l).Perm l
    ∧ (sortPlayerRanks l).Pairwise (fun a b =>
        rankKey b = rankKey a ∨ keyLt (rankKey b) (rankKey a))
    ∧ ∀ k : Int × Int × Int,
        (sortPlayerRanks l).filter (fun p => decide (rankKey p = k))
          = l.filter (fun p => decide (rankKey p = k)) := by
  refine ⟨sortPlayerRanks_perm l, ?_, fun k => sortPlayerRanks_filter_key l k⟩
  apply (sortPlayerRanks_pairwise l).imp
  intro a b hab
  rw [rankLe_iff] at hab
  unfold keyLt at *
  rw [Prod.ext_iff, Prod.ext_iff]
  omega

/-- **C1.**  A synthesized unranked result (`TierValue = -1`) has a sort
key strictly below every ranked result's key — every tier value is
non-negative, Iron IV 0 LP included — so the comparator puts any ranked
result strictly before any unranked one, and in the sorted leaderboard no
unranked result ever precedes a ranked one. -/
theorem claim_C1_unranked_below_ranked (id1 id2 tier rank : String) (lp : Int) :
    keyLt (rankKey (unrankedInfo id1)) (rankKey (rankedInfo id2 tier rank lp))
    ∧ rankLess (rankedInfo id2 tier rank lp) (unrankedInfo id1) = true
    ∧ rankLess (unrankedInfo id1) (rankedInfo id2 tier rank lp) = false
    ∧ ∀ l : List PlayerRankInfo, (sortPlayerRanks l).Pairwise
        (fun a b => ¬ (a.TierValue = -1 ∧ 0 ≤ b.TierValue)) := by
  have htv := tierValueU_nonneg (goToUpper tier)
  have hk1 : rankKey (unrankedInfo id1) = (-1, -1, 0) := rfl
  have hk2 : rankKey (rankedInfo id2 tier rank lp)
      = (tierValueU (goToUpper tier), rankValueU (goToUpper rank), lp) := rfl
  have hlt : keyLt (rankKey (unrankedInfo id1)) (rankKey (rankedInfo id2 tier rank lp)) := by
    rw [hk1, hk2]
    unfold keyLt
    simp only []
    omega
  refine ⟨hlt, (rankLess_iff _ _).mpr hlt, ?_, ?_⟩
  · rw [← Bool.not_eq_true]
    intro hcon
    rw [rankLess_iff, hk1, hk2] at hcon
    unfold keyLt at hcon
    simp only [] at hcon
    omega
  · intro l
    apply (sortPlayerRanks_pairwise l).imp
    intro a b hab
    rintro ⟨ha, hb⟩
    rw [rankLe_iff] at hab
    apply hab
    unfold keyLt rankKey
    simp only []
    omega

/-- **C4.**  The tier/division ordinal mapping is monotone over the known
vocabularies in their listed order, case-insensitive, and maps any label
outside the vocabulary to `0` rather than failing. -/
theorem claim_C4_rank_values :
    (∀ i j : Fin knownTiers.length, i < j →
      (getRankValues (knownTiers.get i) "").1 < (getRankValues (knownTiers.get j) "").1)
    ∧ (∀ i j : Fin knownDivisions.length, i < j →
      (getRankValues "" (knownDivisions.get i)).2 < (getRankValues "" (knownDivisions.get j)).2)
    ∧ (∀ tier rank, getRankValues tier rank = getRankValues (goToUpper tier) (goToUpper rank))
    ∧ (∀ tier rank, ¬ goToUpper tier ∈ knownTiers → (getRankValues tier rank).1 = 0)
    ∧ (∀ tier rank, ¬ goToUpper rank ∈ knownDivisions → (getRankValues tier rank).2 = 0) := by
  refine ⟨by decide, by decide, ?_, ?_, ?_⟩
  · intro tier rank
    unfold getRankValues
    rw [goToUpper_idem, goToUpper_idem]
  · intro tier rank h
    exact tierValueU_zero_of_not_mem _ h
  · intro tier rank h
    exact rankValueU_zero_of_not_mem _ h

theorem claim_C4_rank_values_witness :
    (getRankValues (knownTiers.get ⟨1, by decide⟩) "").1
      < (getRankValues (knownTiers.get ⟨4, by decide⟩) "").1
    ∧ (getRankValues "" (knownDivisions.get ⟨1, by decide⟩)).2
      < (getRankValues "" (knownDivisions.get ⟨3, by decide⟩)).2
    ∧ (getRankValues "FOO" "X").1 = 0
    ∧ (getRankValues "FOO" "X").2 = 0 :=
  ⟨claim_C4_rank_values.1 ⟨1, by decide⟩ ⟨4, by decide⟩ (by decide),
   claim_C4_rank_values.2.1 ⟨1, by decide⟩ ⟨3, by decide⟩ (by decide),
   claim_C4_rank_values.2.2.2.1 "FOO" "X" (by decide),
   claim_C4_rank_values.2.2.2.2 "FOO" "X" (by decide)⟩

/-! ## Day-window lemmas and claim -/

theorem dayWindow_some (y m dd now : Int) :
    dayWindow (some (y, m, dd)) now
      = (dateUnix (ymdJ (dateUnix y m dd 0 0 0)).1 (ymdJ (dateUnix y m dd 0 0 0)).2.1
           (ymdJ (dateUnix y m dd 0 0 0)).2.2 5 0 0,
         addDateDays (dateUnix (ymdJ (dateUnix y m dd 0 0 0)).1
           (ymdJ (dateUnix y m dd 0 0 0)).2.1 (ymdJ (dateUnix y m dd 0 0 0)).2.2 5 0 0) 1) :=
  rfl

theorem dayWindow_shape (dateArg : Option (Int × Int × Int)) (now : Int) :
    ∃ T, dayWindow dateArg now
      = (dateUnix (ymdJ T).1 (ymdJ T).2.1 (ymdJ T).2.2 5 0 0,
         addDateDays (dateUnix (ymdJ T).1 (ymdJ T).2.1 (ymdJ T).2.2 5 0 0) 1) := by
  cases dateArg with
  | none => exact ⟨if hourJ now < 5 then addDateDays now (-1) else now, rfl⟩
  | some ymd =>
    obtain ⟨y, m, dd⟩ := ymd
    exact ⟨dateUnix y m dd 0 0 0, rfl⟩

theorem window_start_props (T : Int) :
    secOfDayJ (dateUnix (ymdJ T).1 (ymdJ T).2.1 (ymdJ T).2.2 5 0 0) = 18000
    ∧ dayNumberJ (dateUnix (ymdJ T).1 (ymdJ T).2.1 (ymdJ T).2.2 5 0 0) = dayNumberJ T := by
  rw [window_start_eq T]
  have h1 : ∀ x : Int, secOfDayJ x = (x + 32400) % 86400 := fun _ => rfl
  have h2 : ∀ x : Int, dayNumberJ x = (x + 32400) / 86400 + 719162 := fun _ => rfl
  have h3 : jstOffset = 32400 := rfl
  have h4 : unixEpochDays = 719162 := rfl
  rw [h1, h2, h2, h3, h4]
  constructor
  · omega
  · omega

/-- **C2.**  Day-window computation of `!daystats`: the explicit argument
`"20240101"` parses to 2024-01-01 and yields the window
[2024-01-01 05:00 JST, 2024-01-02 05:00 JST); for every argument the
window is a half-open span of exactly 86400 seconds whose endpoints sit
at 05:00 JST on consecutive days; and with no date argument the window
starts at 05:00 of the previous JST calendar day when the current JST
hour is before 5, otherwise at 05:00 of the current JST calendar day. -/
theorem claim_C2_day_window :
    (parseYYYYMMDD "20240101" = some (2024, 1, 1)
      ∧ ∀ now, dayWindow (some (2024, 1, 1)) now
          = (dateUnix 2024 1 1 5 0 0, dateUnix 2024 1 2 5 0 0))
    ∧ (∀ dateArg now,
        (dayWindow dateArg now).2 = (dayWindow dateArg now).1 + 86400
        ∧ secOfDayJ (dayWindow dateArg now).1 = 5 * 3600
        ∧ secOfDayJ (dayWindow dateArg now).2 = 5 * 3600
        ∧ dayNumberJ (dayWindow dateArg now).2 = dayNumberJ (dayWindow dateArg now).1 + 1)
    ∧ (∀ now, hourJ now < 5 →
        dayNumberJ (dayWindow none now).1 = dayNumberJ now - 1)
    ∧ (∀ now, 5 ≤ hourJ now →
        dayNumberJ (dayWindow none now).1 = dayNumberJ now) := by
  have h1 : ∀ x : Int, secOfDayJ x = (x + 32400) % 86400 := fun _ => rfl
  have h2 : ∀ x : Int, dayNumberJ x = (x + 32400) / 86400 + 719162 := fun _ => rfl
  refine ⟨⟨by decide, fun now => ?_⟩, ?_, ?_, ?_⟩
  · rw [dayWindow_some]
    decide
  · intro dateArg now
    obtain ⟨T, hT⟩ := dayWindow_shape dateArg now
    obtain ⟨hsod, hdn⟩ := window_start_props T
    rw [hT]
    simp only
    rw [addDateDays_eq]
    refine ⟨by ring, hsod, ?_, ?_⟩
    · rw [h1] at hsod ⊢
      omega
    · simp only [h2] at hdn ⊢
      omega
  · intro now h5
    have hT : dayWindow none now
        = (dateUnix (ymdJ (addDateDays now (-1))).1 (ymdJ (addDateDays now (-1))).2.1
             (ymdJ (addDateDays now (-1))).2.2 5 0 0,
           addDateDays (dateUnix (ymdJ (addDateDays now (-1))).1
             (ymdJ (addDateDays now (-1))).2.1 (ymdJ (addDateDays now (-1))).2.2 5 0 0) 1) := by
      unfold dayWindow
      rw [if_pos h5]
    rw [hT]
    simp only
    rw [(window_start_props (addDateDays now (-1))).2, addDateDays_eq]
    rw [h2, h2]
    omega
  · intro now h5
    have hT : dayWindow none now
        = (dateUnix (ymdJ now).1 (ymdJ now).2.1 (ymdJ now).2.2 5 0 0,
           addDateDays (dateUnix (ymdJ now).1 (ymdJ now).2.1 (ymdJ now).2.2 5 0 0) 1) := by
      unfold dayWindow
      rw [if_neg (by omega)]
    rw [hT]
    simp only
    exact (window_start_props now).2

theorem claim_C2_day_window_witness :
    dayNumberJ (dayWindow none 1704051000).1 = dayNumberJ 1704051000 - 1
    ∧ dayNumberJ (dayWindow none 1704052860).1 = dayNumberJ 1704052860 :=
  ⟨claim_C2_day_window.2.2.1 1704051000 (by decide),
   claim_C2_day_window.2.2.2 1704052860 (by decide)⟩

/-! ## Tally lemmas and claim -/

theorem findParticipant_eq_find (puuid : String) (ps : List ParticipantDTO) :
    findParticipant puuid ps = ps.find? (fun q => q.puuid == puuid) := by
  induction ps with
  | nil => rfl
  | cons p ps ih =>
    unfold findParticipant
    by_cases h : p.puuid = puuid
    · rw [if_pos h, List.find?_cons_of_pos _ (by simp [h])]
    · rw [if_neg h, List.find?_cons_of_neg _ (by simp [h])]
      exact ih

theorem tallyMatch_shape (puuid : String) (s e : Int) (md : MatchDTO) (wl : Int × Int) :
    tallyMatch puuid s e md wl
      = if s ≤ md.info.gameCreation.tdiv 1000 ∧ md.info.gameCreation.tdiv 1000 < e
            ∧ md.info.queueId = 420
        then
          (match findParticipant puuid md.info.participants with
           | some p => if p.win then (wl.1 + 1, wl.2) else (wl.1, wl.2 + 1)
           | none => wl)
        else wl := rfl

/-- **C3.**  A fetched match contributes to the tally iff its creation
time, converted from milliseconds to seconds, satisfies
`start ≤ creation < end` and its queue id is `420`; at `creation = end`
(in seconds) the match is excluded, at `creation = start` it is included;
which counter moves is decided by the win flag of the first participant
whose PUUID equals the resolved account's PUUID. -/
theorem claim_C3_tally (puuid : String) (s e : Int) (md : MatchDTO)
    (wl : Int × Int) (p : ParticipantDTO)
    (hp : findParticipant puuid md.info.participants = some p) :
    (tallyMatch puuid s e md wl
      = if s ≤ md.info.gameCreation.tdiv 1000 ∧ md.info.gameCreation.tdiv 1000 < e
            ∧ md.info.queueId = 420
        then (if p.win then (wl.1 + 1, wl.2) else (wl.1, wl.2 + 1)) else wl)
    ∧ (tallyMatch puuid s e md wl ≠ wl
        ↔ (s ≤ md.info.gameCreation.tdiv 1000 ∧ md.info.gameCreation.tdiv 1000 < e
            ∧ md.info.queueId = 420))
    ∧ (md.info.gameCreation = 1000 * e → tallyMatch puuid s e md wl = wl)
    ∧ (md.info.gameCreation = 1000 * s → s < e → md.info.queueId = 420 →
        tallyMatch puuid s e md wl ≠ wl)
    ∧ findParticipant puuid md.info.participants
        = md.info.participants.find? (fun q => q.puuid == puuid) := by
  have h1 : tallyMatch puuid s e md wl
      = if s ≤ md.info.gameCreation.tdiv 1000 ∧ md.info.gameCreation.tdiv 1000 < e
            ∧ md.info.queueId = 420
        then (if p.win then (wl.1 + 1, wl.2) else (wl.1, wl.2 + 1)) else wl := by
    rw [tallyMatch_shape, hp]
  have h2 : tallyMatch puuid s e md wl ≠ wl
      ↔ (s ≤ md.info.gameCreation.tdiv 1000 ∧ md.info.gameCreation.tdiv 1000 < e
          ∧ md.info.queueId = 420) := by
    rw [h1]
    by_cases hc : s ≤ md.info.gameCreation.tdiv 1000 ∧ md.info.gameCreation.tdiv 1000 < e
        ∧ md.info.queueId = 420
    · rw [if_pos hc]
      simp only [hc, iff_true]
      cases hw : p.win <;> simp [Prod.ext_iff]
    · rw [if_neg hc]
      simp [hc]
  refine ⟨h1, h2, ?_, ?_, findParticipant_eq_find puuid md.info.participants⟩
  · intro hcr
    rw [h1, if_neg ?_]
    rw [hcr]
    have : (1000 * e).tdiv 1000 = e := Int.mul_tdiv_cancel_left e (by norm_num)
    rw [this]
    omega
  · intro hcr hse hq
    rw [h2, hcr]
    have : (1000 * s).tdiv 1000 = s := Int.mul_tdiv_cancel_left s (by norm_num)
    rw [this]
    omega

theorem claim_C3_tally_witness :
    tallyMatch "P1" 1704052800 1704139200 mdW (0, 0) ≠ (0, 0) :=
  (claim_C3_tally "P1" 1704052800 1704139200 mdW (0, 0) ⟨"P1", "alice", true, 100⟩
    (by decide)).2.2.2.1 (by decide) (by decide) (by decide)

/-! ## Leaderboard aggregation lemmas and claim -/

theorem processPlayer_none_of_account (env : Env) (raw gn tl : String)
    (hsplit : goSplit '#' raw = [gn, tl]) (hacc : env.account gn tl = none) :
    processPlayer env raw = none := by
  unfold processPlayer
  rw [hsplit]
  simp only [hacc]

/-- **C6.**  A per-player failure removes only that player: the collected
results of a roster with one failing member are the results of the rest,
every remaining player still processed; in particular a roster of three
players where exactly the middle one fails account resolution renders
exactly two player lines. -/
theorem claim_C6_partial_failure :
    (∀ (env : Env) (pre : List String) (bad : String) (post : List String),
      processPlayer env bad = none →
      collectPlayerRanks env (pre ++ bad :: post)
        = collectPlayerRanks env pre ++ collectPlayerRanks env post)
    ∧ (∀ (env : Env) (a b c : String) (ra rc : PlayerRankInfo) (gn tl : String),
      processPlayer env a = some ra → processPlayer env c = some rc →
      goSplit '#' b = [gn, tl] → env.account gn tl = none →
      collectPlayerRanks env [a, b, c] = [ra, rc]
        ∧ (rankingPlayerLines env [a, b, c]).length = 2) := by
  constructor
  · intro env pre bad post hbad
    unfold collectPlayerRanks
    rw [List.filterMap_append]
    simp [List.filterMap_cons, hbad]
  · intro env a b c ra rc gn tl ha hc hsplit hacc
    have hb := processPlayer_none_of_account env b gn tl hsplit hacc
    have hcol : collectPlayerRanks env [a, b, c] = [ra, rc] := by
      unfold collectPlayerRanks
      simp [List.filterMap_cons, ha, hb, hc]
    refine ⟨hcol, ?_⟩
    unfold rankingPlayerLines
    rw [List.length_mapIdx, (sortPlayerRanks_perm _).length_eq, hcol]
    rfl

theorem claim_C6_partial_failure_witness :
    collectPlayerRanks envC6 ["Alice#JP1", "Bob#JP2", "Carol#JP3"]
      = [unrankedInfo "Alice#JP1", unrankedInfo "Carol#JP3"]
    ∧ (rankingPlayerLines envC6 ["Alice#JP1", "Bob#JP2", "Carol#JP3"]).length = 2 :=
  claim_C6_partial_failure.2 envC6 "Alice#JP1" "Bob#JP2" "Carol#JP3"
    (unrankedInfo "Alice#JP1") (unrankedInfo "Carol#JP3") "Bob" "JP2"
    (by decide) (by decide) (by decide) (by decide)


/-! ## `!add` atomicity lemmas and claim -/

theorem addSuccessMsg_ne_tmpl (arg sfx : String)
    (h : ¬ sfx.data = ("` をランキングリストに追加しました。" : String).data) :
    ¬ addSuccessMsg arg = "`" ++ arg ++ sfx := by
  intro he
  apply h
  have hd := congrArg String.data he
  unfold addSuccessMsg at hd
  rw [String.data_append, String.data_append, String.data_append,
      String.data_append] at hd
  exact (List.append_cancel_left hd).symm

theorem addSuccessMsg_ne_const (arg : String) (s : String)
    (hs : ¬ s.data.head? = some '`') : ¬ addSuccessMsg arg = s := by
  intro h
  apply hs
  rw [← h]
  unfold addSuccessMsg
  rw [String.append_assoc, String.data_append]
  rfl

/-- **C10.**  `!add` is atomic with respect to the in-memory roster: when
the store write fails, the roster and the store content are unchanged and
the success reply is not among the produced messages; and in general
either the roster and content are untouched, or the write succeeded and
the roster gained exactly the new identity, the store holds the upserted
content, and the success reply was sent. -/
theorem claim_C10_add_atomicity :
    (∀ (env : Env) (roster : List String) (content : Option String) (arg : String),
      (addHandler env roster content false arg).roster = roster
      ∧ (addHandler env roster content false arg).content = content
      ∧ ¬ addSuccessMsg arg ∈ (addHandler env roster content false arg).messages)
    ∧ (∀ (env : Env) (roster : List String) (content : Option String)
        (writeOk : Bool) (arg : String),
      ((addHandler env roster content writeOk arg).roster = roster
        ∧ (addHandler env roster content writeOk arg).content = content)
      ∨ (writeOk = true
        ∧ (addHandler env roster content writeOk arg).roster = roster ++ [arg]
        ∧ (addHandler env roster content writeOk arg).content
            = some (addPlayerToEnvFile arg content)
        ∧ (addHandler env roster content writeOk arg).messages = [addSuccessMsg arg])) := by
  constructor
  · intro env roster content arg
    unfold addHandler
    repeat' split
    all_goals
      first
        | (rename_i hfalse; exact absurd hfalse (by decide))
        | refine ⟨rfl, rfl, ?_⟩
    all_goals simp only [List.mem_singleton]
    all_goals
      first
        | exact addSuccessMsg_ne_tmpl arg _ (by decide)
        | exact addSuccessMsg_ne_const arg _ (by decide)
  · intro env roster content writeOk arg
    unfold addHandler
    repeat' split
    all_goals
      first
        | exact Or.inl ⟨rfl, rfl⟩
        | (rename_i hw; exact Or.inr ⟨hw, rfl, rfl, rfl⟩)

/-! ## Throttling-trace lemmas and claim -/

theorem callsDelayedOn_append (tgt : ApiCall → Bool) (l1 l2 : List Event) :
    ∀ prev, callsDelayedOn tgt prev (l1 ++ l2)
      = (callsDelayedOn tgt prev l1 && callsDelayedOn tgt (lastOr prev l1) l2) := by
  induction l1 with
  | nil =>
    intro prev
    simp [callsDelayedOn, lastOr]
  | cons e l1 ih =>
    intro prev
    show callsDelayedOn tgt prev (e :: (l1 ++ l2))
      = (callsDelayedOn tgt prev (e :: l1) && callsDelayedOn tgt (lastOr (some e) l1) l2)
    simp only [callsDelayedOn]
    rw [ih (some e), Bool.and_assoc]

theorem playerLoopTrace_delayed (env : Env) (raw : String) (prev : Option Event) :
    callsDelayedOn (fun _ => true) prev (playerLoopTrace env raw) = true := by
  unfold playerLoopTrace
  simp only [callsDelayedOn]
  repeat' split
  all_goals simp [callsDelayedOn]

theorem rankingTrace_delayed (env : Env) (roster : List String) :
    ∀ prev, callsDelayedOn (fun _ => true) prev (rankingTrace env roster) = true := by
  induction roster with
  | nil => intro prev; rfl
  | cons r rest ih =>
    intro prev
    show callsDelayedOn _ prev (playerLoopTrace env r ++ rankingTrace env rest) = true
    rw [callsDelayedOn_append, playerLoopTrace_delayed, ih]
    rfl

theorem detailPairs_delayed (ids : List String) :
    ∀ prev, callsDelayedOn isDetailCall prev
      (ids.flatMap (fun id => [Event.sleep, Event.call (ApiCall.matchDetails id)])) = true := by
  induction ids with
  | nil => intro prev; rfl
  | cons id rest ih =>
    intro prev
    show callsDelayedOn isDetailCall prev
        (Event.sleep :: Event.call (ApiCall.matchDetails id)
          :: rest.flatMap (fun i => [Event.sleep, Event.call (ApiCall.matchDetails i)])) = true
    simp only [callsDelayedOn]
    rw [ih]
    simp

theorem dayStatsTrace_detail_delayed (env : Env) (riotID : String)
    (dateArg : Option (Int × Int × Int)) (now : Int) (prev : Option Event) :
    callsDelayedOn isDetailCall prev (dayStatsTrace env riotID dateArg now) = true := by
  unfold dayStatsTrace
  rcases hs : goSplit '#' riotID with _ | ⟨gn, _ | ⟨tl, _ | ⟨x, xs⟩⟩⟩
  · rfl
  · rfl
  · simp only
    rcases hacc : env.account gn tl with _ | acct
    · simp [callsDelayedOn, isDetailCall]
    · show callsDelayedOn isDetailCall prev
          (Event.call (ApiCall.account gn tl)
            :: Event.call (ApiCall.matchIds acct.puuid (dayWindow dateArg now).1
                 (dayWindow dateArg now).2)
            :: (match env.matchIds acct.puuid (dayWindow dateArg now).1
                  (dayWindow dateArg now).2 with
                | none => []
                | some ids =>
                  ids.flatMap fun id => [Event.sleep, Event.call (ApiCall.matchDetails id)]))
          = true
      rcases hmi : env.matchIds acct.puuid (dayWindow dateArg now).1 (dayWindow dateArg now).2
        with _ | ids
      · simp [callsDelayedOn, isDetailCall]
      · simp [callsDelayedOn, isDetailCall, detailPairs_delayed]
  · rfl

/-- **C7 (counterexample).**  The claim that the 1.2 s delay precedes
every outbound call fails on `!daystats`: with an oracle that resolves
the account and returns one match id, the trace opens with the account
call and the match-id call with no sleep before either. -/
theorem claim_C7_counterexample :
    delayBeforeEveryCall (dayStatsTrace envC7 "N#T" (some (2024, 1, 1)) 0) = false := by
  decide

/-- **C7 (amended).**  The delay discipline the code actually implements:
in the `!ranking`/`!rank` player loops every outbound call is immediately
preceded by a sleep (also each player's first call), and in `!daystats`
every per-match detail call is immediately preceded by a sleep; but the
`!daystats` trace opens directly with the account call (followed by the
match-id call), and the `!add` verification call is the whole trace — no
delay precedes those three calls. -/
theorem claim_C7_amended_delays :
    (∀ (env : Env) (roster : List String) (prev : Option Event),
      callsDelayedOn (fun _ => true) prev (rankingTrace env roster) = true)
    ∧ (∀ (env : Env) (riotID : String) (dateArg : Option (Int × Int × Int))
        (now : Int) (prev : Option Event),
      callsDelayedOn isDetailCall prev (dayStatsTrace env riotID dateArg now) = true)
    ∧ (∀ (env : Env) (riotID gn tl : String) (dateArg : Option (Int × Int × Int)) (now : Int),
      goSplit '#' riotID = [gn, tl] →
      (dayStatsTrace env riotID dateArg now).head?
        = some (Event.call (ApiCall.account gn tl)))
    ∧ (∀ (env : Env) (roster : List String) (arg gn tl : String),
      ¬ arg = "" → goSplit '#' arg = [gn, tl] → ¬ gn = "" → ¬ tl = "" →
      roster.contains arg = false →
      addTrace env roster arg = [Event.call (ApiCall.account gn tl)]) := by
  refine ⟨rankingTrace_delayed, dayStatsTrace_detail_delayed, ?_, ?_⟩
  · intro env riotID gn tl dateArg now hsplit
    unfold dayStatsTrace
    rw [hsplit]
    rfl
  · intro env roster arg gn tl h1 hsplit h2 h3 h4
    unfold addTrace
    rw [if_neg h1, hsplit]
    show (if gn = "" ∨ tl = "" then []
          else if roster.contains arg = true then []
          else [Event.call (ApiCall.account gn tl)])
        = [Event.call (ApiCall.account gn tl)]
    rw [if_neg (by simp [h2, h3]), if_neg (by rw [h4]; decide)]

theorem claim_C7_amended_delays_witness :
    (dayStatsTrace envC7 "N#T" (some (2024, 1, 1)) 0).head?
      = some (Event.call (ApiCall.account "N" "T"))
    ∧ addTrace envC7 [] "N#T" = [Event.call (ApiCall.account "N" "T")] :=
  ⟨claim_C7_amended_delays.2.2.1 envC7 "N#T" "N" "T" (some (2024, 1, 1)) 0 (by decide),
   claim_C7_amended_delays.2.2.2 envC7 [] "N#T" "N" "T" (by decide) (by decide)
     (by decide) (by decide) (by decide)⟩

theorem listStartsWith_append (a b : List Char) : listStartsWith a (a ++ b) = true := by
  induction a with
  | nil => rfl
  | cons c cs ih => simp [listStartsWith, ih]

theorem splitChar_ne_nil (sep : Char) : ∀ l, splitChar sep l ≠ []
  | [] => by simp [splitChar]
  | c :: cs => by
    simp only [splitChar]
    split
    · simp
    · cases h : splitChar sep cs with
      | nil => exact absurd h (splitChar_ne_nil sep cs)
      | cons hd tl => simp

theorem splitChar_no_sep (sep : Char) : ∀ l, ∀ piece ∈ splitChar sep l, ¬ sep ∈ piece
  | [] => by
    intro piece hp
    simp only [splitChar, List.mem_singleton] at hp
    subst hp
    simp
  | c :: cs => by
    intro piece hp
    simp only [splitChar] at hp
    by_cases hc : c = sep
    · rw [if_pos hc] at hp
      rcases List.mem_cons.mp hp with h | h
      · subst h; simp
      · exact splitChar_no_sep sep cs piece h
    · rw [if_neg hc] at hp
      cases he : splitChar sep cs with
      | nil => exact absurd he (splitChar_ne_nil sep cs)
      | cons hd tl =>
        rw [he] at hp
        rcases List.mem_cons.mp hp with h | h
        · subst h
          intro hmem
          rcases List.mem_cons.mp hmem with h1 | h1
          · exact hc h1.symm
          · exact splitChar_no_sep sep cs hd (by rw [he]; exact List.mem_cons_self hd tl) h1
        · exact splitChar_no_sep sep cs piece (by rw [he]; exact List.mem_cons_of_mem hd h)

theorem splitChar_subset (sep : Char) : ∀ l, ∀ piece ∈ splitChar sep l, ∀ c ∈ piece, c ∈ l
  | [] => by
    intro piece hp
    simp only [splitChar, List.mem_singleton] at hp
    subst hp
    simp
  | c :: cs => by
    intro piece hp x hx
    simp only [splitChar] at hp
    by_cases hc : c = sep
    · rw [if_pos hc] at hp
      rcases List.mem_cons.mp hp with h | h
      · subst h; simp at hx
      · exact List.mem_cons_of_mem c (splitChar_subset sep cs piece h x hx)
    · rw [if_neg hc] at hp
      cases he : splitChar sep cs with
      | nil => exact absurd he (splitChar_ne_nil sep cs)
      | cons hd tl =>
        rw [he] at hp
        rcases List.mem_cons.mp hp with h | h
        · subst h
          rcases List.mem_cons.mp hx with h1 | h1
          · subst h1; exact List.mem_cons_self x cs
          · exact List.mem_cons_of_mem c
              (splitChar_subset sep cs hd (by rw [he]; exact List.mem_cons_self hd tl) x h1)
        · exact List.mem_cons_of_mem c
            (splitChar_subset sep cs piece (by rw [he]; exact List.mem_cons_of_mem hd h) x hx)

theorem splitChar_of_no_sep (sep : Char) : ∀ l, ¬ sep ∈ l → splitChar sep l = [l]
  | [] => by intro; rfl
  | c :: cs => by
    intro h
    simp only [splitChar]
    rw [if_neg (by intro hc; exact h (hc ▸ List.mem_cons_self c cs))]
    rw [splitChar_of_no_sep sep cs (fun hm => h (List.mem_cons_of_mem c hm))]

theorem splitChar_append_sep (sep : Char) : ∀ a b, ¬ sep ∈ a →
    splitChar sep (a ++ sep :: b) = a :: splitChar sep b
  | [], b => by
    intro
    simp [splitChar]
  | c :: cs, b => by
    intro h
    simp only [List.cons_append, splitChar, List.append_eq]
    rw [if_neg (by intro hc; exact h (hc ▸ List.mem_cons_self c cs))]
    rw [splitChar_append_sep sep cs b (fun hm => h (List.mem_cons_of_mem c hm))]

theorem splitChar_joinChar (sep : Char) : ∀ Md, Md ≠ [] → (∀ x ∈ Md, ¬ sep ∈ x) →
    splitChar sep (joinChar sep Md) = Md
  | [], h, _ => absurd rfl h
  | [x], _, hx => by
    simp only [joinChar]
    exact splitChar_of_no_sep sep x (hx x (List.mem_singleton_self x))
  | x :: y :: rest, _, hx => by
    show splitChar sep (x ++ sep :: joinChar sep (y :: rest)) = x :: (y :: rest)
    rw [splitChar_append_sep sep x _ (hx x (List.mem_cons_self _ _))]
    rw [splitChar_joinChar sep (y :: rest) (by simp)
        (fun z hz => hx z (List.mem_cons_of_mem x hz))]

theorem splitChar_append_last (sep : Char) : ∀ a,
    splitChar sep (a ++ [sep]) = splitChar sep a ++ [[]]
  | [] => by simp [splitChar]
  | c :: cs => by
    simp only [List.cons_append, splitChar, List.append_eq]
    by_cases hc : c = sep
    · rw [if_pos hc, if_pos hc, splitChar_append_last sep cs]
      rfl
    · rw [if_neg hc, if_neg hc, splitChar_append_last sep cs]
      cases he : splitChar sep cs with
      | nil => exact absurd he (splitChar_ne_nil sep cs)
      | cons hd tl => rfl

theorem splitFirst_append_sep (sep : Char) : ∀ a b, ¬ sep ∈ a →
    splitFirst sep (a ++ sep :: b) = some (a, b)
  | [], b => by
    intro
    simp [splitFirst]
  | c :: cs, b => by
    intro h
    simp only [List.cons_append, splitFirst, List.append_eq]
    rw [if_neg (by intro hc; exact h (hc ▸ List.mem_cons_self c cs))]
    rw [splitFirst_append_sep sep cs b (fun hm => h (List.mem_cons_of_mem c hm))]
    rfl

theorem splitFirst_subset (sep : Char) : ∀ l a b, splitFirst sep l = some (a, b) →
    (∀ c ∈ a, c ∈ l) ∧ ∀ c ∈ b, c ∈ l
  | [], a, b => by intro h; simp [splitFirst] at h
  | c :: cs, a, b => by
    intro h
    simp only [splitFirst] at h
    by_cases hc : c = sep
    · rw [if_pos hc] at h
      simp only [Option.some.injEq, Prod.mk.injEq] at h
      obtain ⟨ha, hb⟩ := h
      subst ha; subst hb
      exact ⟨by simp, fun x hx => List.mem_cons_of_mem c hx⟩
    · rw [if_neg hc] at h
      cases he : splitFirst sep cs with
      | none => rw [he] at h; simp at h
      | some r =>
        rw [he] at h
        simp only [Option.map_some', Option.some.injEq, Prod.mk.injEq] at h
        obtain ⟨ha, hb⟩ := h
        obtain ⟨r1, r2⟩ := r
        have hr := splitFirst_subset sep cs r1 r2 he
        subst ha; subst hb
        constructor
        · intro x hx
          rcases List.mem_cons.mp hx with h1 | h1
          · subst h1; exact List.mem_cons_self x cs
          · exact List.mem_cons_of_mem c (hr.1 x h1)
        · intro x hx
          exact List.mem_cons_of_mem c (hr.2 x hx)

theorem dropWhile_eq_self_of_forall {p : Char → Bool} :
    ∀ l : List Char, (∀ c ∈ l, p c = false) → l.dropWhile p = l
  | [] => fun _ => rfl
  | c :: cs => fun h => by
    rw [List.dropWhile_cons, h c (List.mem_cons_self c cs)]
    simp

theorem dropWhile_eq_nil_of_forall {p : Char → Bool} :
    ∀ l : List Char, (∀ c ∈ l, p c = true) → l.dropWhile p = []
  | [] => fun _ => rfl
  | c :: cs => fun h => by
    rw [List.dropWhile_cons, h c (List.mem_cons_self c cs)]
    simp only [if_true]
    exact dropWhile_eq_nil_of_forall cs (fun x hx => h x (List.mem_cons_of_mem c hx))

theorem trimRightNl_of_no_nl (s : String) (h : ¬ '\n' ∈ s.data) : trimRightNl s = s := by
  show String.mk ((s.data.reverse.dropWhile (fun c => c == '\n')).reverse) = s
  rw [dropWhile_eq_self_of_forall s.data.reverse (fun c hc => by
    have : c ∈ s.data := List.mem_reverse.mp hc
    simp only [beq_eq_false_iff_ne, ne_eq]
    intro he
    exact h (he ▸ this))]
  rw [List.reverse_reverse]

theorem dropTrailBlank_eq_nil : ∀ M : List String, dropTrailBlank M = [] → ∀ s ∈ M, s = ""
  | [], _, s, hs => by simp at hs
  | x :: xs, h, s, hs => by
    simp only [dropTrailBlank] at h
    cases he : dropTrailBlank xs with
    | nil =>
      rw [he] at h
      by_cases hx : x = ""
      · rcases List.mem_cons.mp hs with h1 | h1
        · exact h1 ▸ hx
        · exact dropTrailBlank_eq_nil xs he s h1
      · rw [if_neg hx] at h
        simp at h
    | cons z zs => rw [he] at h; simp at h

theorem goJoin_all_blank : ∀ M : List String, (∀ s ∈ M, s = "") →
    ∀ c ∈ (goJoin '\n' M).data, c = '\n'
  | [], _, c, hc => by simp [goJoin, joinChar] at hc
  | [x], h, c, hc => by
    have hx : x = "" := h x (List.mem_singleton_self x)
    subst hx
    simp [goJoin, joinChar] at hc
  | x :: y :: rest, h, c, hc => by
    have hx : x = "" := h x (List.mem_cons_self _ _)
    subst hx
    have : (goJoin '\n' ("" :: y :: rest)).data
        = '\n' :: (goJoin '\n' (y :: rest)).data := rfl
    rw [this] at hc
    rcases List.mem_cons.mp hc with h1 | h1
    · exact h1
    · exact goJoin_all_blank (y :: rest) (fun s hs => h s (List.mem_cons_of_mem _ hs)) c h1

theorem dropTrailBlank_getLast : ∀ (M : List String) (z : String) (zs : List String),
    dropTrailBlank M = z :: zs → ¬ (z :: zs).getLast? = some ""
  | [], z, zs, h => by simp [dropTrailBlank] at h
  | x :: xs, z, zs, h => by
    simp only [dropTrailBlank] at h
    cases he : dropTrailBlank xs with
    | nil =>
      rw [he] at h
      by_cases hx : x = ""
      · rw [if_pos hx] at h; simp at h
      · rw [if_neg hx] at h
        simp only [List.cons.injEq] at h
        obtain ⟨h1, h2⟩ := h
        subst h1; subst h2
        simpa using hx
    | cons w ws =>
      rw [he] at h
      simp only [List.cons.injEq] at h
      obtain ⟨h1, h2⟩ := h
      subst h1; subst h2
      rw [List.getLast?_cons_cons]
      exact dropTrailBlank_getLast xs w ws he

theorem goJoin_data_ne_nil : ∀ (z : String) (zs : List String),
    ¬ (z :: zs).getLast? = some "" → ¬ (goJoin '\n' (z :: zs)).data = []
  | z, [], h => by
    intro hd
    apply h
    have : z = "" := String.ext hd
    simp [this]
  | z, w :: ws, _ => by
    intro hd
    have : (goJoin '\n' (z :: w :: ws)).data
        = z.data ++ '\n' :: (goJoin '\n' (w :: ws)).data := rfl
    rw [this] at hd
    rcases z.data with _ | ⟨c, cs⟩ <;> simp at hd

theorem dropTrailBlank_cons (s : String) (M : List String) :
    dropTrailBlank (s :: M) = match dropTrailBlank M with
      | [] => if s = "" then [] else [s]
      | ys => s :: ys := rfl

theorem trimRightNl_goJoin : ∀ M : List String, (∀ s ∈ M, ¬ '\n' ∈ s.data) →
    trimRightNl (goJoin '\n' M) = goJoin '\n' (dropTrailBlank M)
  | [], _ => rfl
  | [x], h => by
    show trimRightNl x = goJoin '\n' (dropTrailBlank [x])
    simp only [dropTrailBlank]
    by_cases hx : x = ""
    · rw [if_pos hx, hx]
      rfl
    · rw [if_neg hx]
      exact trimRightNl_of_no_nl x (h x (List.mem_singleton_self x))
  | x :: y :: rest, h => by
    have hN : ∀ s ∈ y :: rest, ¬ '\n' ∈ s.data :=
      fun s hs => h s (List.mem_cons_of_mem x hs)
    have hxd : ¬ '\n' ∈ x.data := h x (List.mem_cons_self _ _)
    have ih := trimRightNl_goJoin (y :: rest) hN
    have hdata : (goJoin '\n' (x :: y :: rest)).data
        = x.data ++ '\n' :: (goJoin '\n' (y :: rest)).data := rfl
    have hrev : (goJoin '\n' (x :: y :: rest)).data.reverse
        = ((goJoin '\n' (y :: rest)).data.reverse ++ ['\n']) ++ x.data.reverse := by
      rw [hdata]
      simp
    cases he : dropTrailBlank (y :: rest) with
    | nil =>
      have hblank := dropTrailBlank_eq_nil (y :: rest) he
      have hJ : ∀ c ∈ (goJoin '\n' (y :: rest)).data, c = '\n' :=
        goJoin_all_blank (y :: rest) hblank
      have hdw : ((goJoin '\n' (y :: rest)).data.reverse ++ ['\n']).dropWhile
          (fun c => c == '\n') = [] := by
        apply dropWhile_eq_nil_of_forall
        intro c hc
        rcases List.mem_append.mp hc with h1 | h1
        · rw [hJ c (List.mem_reverse.mp h1)]
          rfl
        · simp at h1
          rw [h1]
          rfl
      have hltrim : trimRightNl (goJoin '\n' (x :: y :: rest)) = x := by
        show String.mk _ = x
        rw [hrev, List.dropWhile_append, hdw]
        simp only [List.isEmpty_nil, if_true]
        rw [dropWhile_eq_self_of_forall x.data.reverse (fun c hc => by
          have : c ∈ x.data := List.mem_reverse.mp hc
          simp only [beq_eq_false_iff_ne, ne_eq]
          intro hce
          exact hxd (hce ▸ this))]
        rw [List.reverse_reverse]
      rw [hltrim]
      show x = goJoin '\n' (dropTrailBlank (x :: y :: rest))
      rw [dropTrailBlank_cons, he]
      by_cases hx : x = ""
      · show x = goJoin '\n' (if x = "" then [] else [x])
        rw [if_pos hx, hx]
        rfl
      · show x = goJoin '\n' (if x = "" then [] else [x])
        rw [if_neg hx]
        rfl
    | cons z zs =>
      apply String.ext
      have htd : (trimRightNl (goJoin '\n' (y :: rest))).data
          = ((goJoin '\n' (y :: rest)).data.reverse.dropWhile (fun c => c == '\n')).reverse
          := rfl
      have hne : ¬ ((goJoin '\n' (y :: rest)).data.reverse.dropWhile
          (fun c => c == '\n')) = [] := by
        intro hnil
        have : (trimRightNl (goJoin '\n' (y :: rest))).data = [] := by
          rw [htd, hnil]
          rfl
        rw [ih, he] at this
        exact goJoin_data_ne_nil z zs (dropTrailBlank_getLast (y :: rest) z zs he) this
      show (trimRightNl (goJoin '\n' (x :: y :: rest))).data = _
      have hstep : (trimRightNl (goJoin '\n' (x :: y :: rest))).data
          = (((goJoin '\n' (y :: rest)).data.reverse.dropWhile (fun c => c == '\n'))
              ++ ['\n'] ++ x.data.reverse).reverse := by
        show ((goJoin '\n' (x :: y :: rest)).data.reverse.dropWhile
            (fun c => c == '\n')).reverse = _
        rw [hrev, List.dropWhile_append, List.dropWhile_append]
        rw [if_neg (by simpa using hne)]
        rw [if_neg (by simp [List.isEmpty_eq_true, hne])]
      rw [hstep]
      simp only [List.reverse_append, List.reverse_reverse, List.reverse_cons,
        List.reverse_nil, List.nil_append]
      have : dropTrailBlank (x :: y :: rest) = x :: z :: zs := by
        rw [dropTrailBlank_cons, he]
      rw [this]
      have hgj : (goJoin '\n' (x :: z :: zs)).data
          = x.data ++ '\n' :: (goJoin '\n' (z :: zs)).data := rfl
      rw [hgj, ← he, ← ih, htd]
      simp

theorem string_mk_data (s : String) : String.mk s.data = s := rfl

theorem goSplit_ne_nil (sep : Char) (s : String) : goSplit sep s ≠ [] := by
  simp only [goSplit, ne_eq, List.map_eq_nil_iff]
  exact splitChar_ne_nil sep s.data

theorem goSplit_no_sep (sep : Char) (s : String) :
    ∀ piece ∈ goSplit sep s, ¬ sep ∈ piece.data := by
  intro piece hp
  simp only [goSplit, List.mem_map] at hp
  obtain ⟨d, hd, he⟩ := hp
  subst he
  exact splitChar_no_sep sep s.data d hd

theorem goSplit_mem_subset (sep : Char) (s : String) :
    ∀ piece ∈ goSplit sep s, ∀ c ∈ piece.data, c ∈ s.data := by
  intro piece hp
  simp only [goSplit, List.mem_map] at hp
  obtain ⟨d, hd, he⟩ := hp
  subst he
  exact splitChar_subset sep s.data d hd

theorem goSplit_of_no_sep (sep : Char) (s : String) (h : ¬ sep ∈ s.data) :
    goSplit sep s = [s] := by
  simp only [goSplit, splitChar_of_no_sep sep s.data h, List.map_cons, List.map_nil,
    string_mk_data]

theorem goSplit_goJoin (sep : Char) (M : List String) (h0 : M ≠ [])
    (h : ∀ x ∈ M, ¬ sep ∈ x.data) : goSplit sep (goJoin sep M) = M := by
  simp only [goSplit, goJoin]
  rw [splitChar_joinChar sep (M.map String.data) (by simpa using h0)
    (by intro x hx; simp only [List.mem_map] at hx; obtain ⟨y, hy, he⟩ := hx; subst he
        exact h y hy)]
  simp only [List.map_map]
  exact List.map_id'' (fun s => rfl) M

theorem data_append (s t : String) : (s ++ t).data = s.data ++ t.data := rfl

theorem goSplit_append_nl (s : String) :
    goSplit '\n' (s ++ "\n") = goSplit '\n' s ++ [""] := by
  simp only [goSplit]
  rw [show (s ++ "\n").data = s.data ++ ['\n'] from rfl]
  rw [splitChar_append_last]
  simp

theorem goJoin_mem_char (sep : Char) : ∀ M : List String, ∀ c ∈ (goJoin sep M).data,
    c = sep ∨ ∃ x ∈ M, c ∈ x.data
  | [], c, hc => by simp [goJoin, joinChar] at hc
  | [x], c, hc => by
    simp only [goJoin, List.map_cons, List.map_nil, joinChar] at hc
    exact Or.inr ⟨x, List.mem_singleton_self x, hc⟩
  | x :: y :: rest, c, hc => by
    have hc2 : c ∈ x.data ++ sep :: (goJoin sep (y :: rest)).data := hc
    rcases List.mem_append.mp hc2 with h1 | h1
    · exact Or.inr ⟨x, List.mem_cons_self _ _, h1⟩
    · rcases List.mem_cons.mp h1 with h2 | h2
      · exact Or.inl h2
      · rcases goJoin_mem_char sep (y :: rest) c h2 with h3 | ⟨z, hz, hcz⟩
        · exact Or.inl h3
        · exact Or.inr ⟨z, List.mem_cons_of_mem x hz, hcz⟩

theorem goJoin_ne_empty (sep : Char) (z : String) (zs : List String) (hz : ¬ z = "") :
    ¬ goJoin sep (z :: zs) = "" := by
  intro h
  have hd := congrArg String.data h
  cases zs with
  | nil =>
    have : z.data = [] := hd
    exact hz (congrArg String.mk this)
  | cons w ws =>
    have : z.data ++ sep :: (goJoin sep (w :: ws)).data = [] := hd
    simp at this

theorem isFrameLine_blank (key : String) : isFrameLine key "" = false := by
  simp [isFrameLine]

theorem isFrameLine_entry (key value : String) :
    isFrameLine key (key ++ "=" ++ value) = false := by
  have h : goStartsWith (key ++ "=" ++ value) (key ++ "=") = true := by
    show listStartsWith (key ++ "=").data ((key ++ "=" ++ value).data) = true
    rw [show (key ++ "=" ++ value).data = (key ++ "=").data ++ value.data from rfl]
    exact listStartsWith_append _ _
  simp [isFrameLine, h]

theorem isFrameLine_keyline (key l : String) (h : goStartsWith l (key ++ "=") = true) :
    isFrameLine key l = false := by
  simp [isFrameLine, h]

theorem replaceKeyLine_filter (key value : String) : ∀ lines : List String,
    ((replaceKeyLine key value lines).2).filter (isFrameLine key)
      = lines.filter (isFrameLine key)
  | [] => rfl
  | line :: rest => by
    simp only [replaceKeyLine]
    by_cases h : goStartsWith line (key ++ "=") = true
    · rw [if_pos h]
      simp only [List.filter_cons]
      simp [isFrameLine_entry, isFrameLine_keyline key line h]
    · rw [if_neg h]
      simp only [List.filter_cons]
      rw [replaceKeyLine_filter key value rest]

theorem updLines_filter (key value : String) (lines : List String) :
    (updLines key value lines).filter (isFrameLine key)
      = lines.filter (isFrameLine key) := by
  simp only [updLines]
  by_cases hf : (replaceKeyLine key value lines).1 = true
  · rw [if_pos hf]
    exact replaceKeyLine_filter key value lines
  · rw [if_neg hf]
    cases hq : lines.getLast? with
    | none =>
      simp [List.filter_append, List.filter_cons, isFrameLine_entry]
    | some z =>
      show List.filter (isFrameLine key)
          (if z = "" then
            if 1 < lines.length then lines.dropLast ++ [key ++ "=" ++ value, ""]
            else [key ++ "=" ++ value, ""]
          else lines ++ [key ++ "=" ++ value]) = List.filter (isFrameLine key) lines
      by_cases hz : z = ""
      · rw [if_pos hz]
        have hne : lines ≠ [] := by
          intro h0
          rw [h0] at hq
          simp at hq
        have hLast : lines.getLast hne = "" := by
          have h2 := List.getLast?_eq_getLast lines hne
          rw [h2] at hq
          have := Option.some.inj hq
          rw [this, hz]
        have hsplit : lines.dropLast ++ [""] = lines := by
          rw [← hLast]
          exact List.dropLast_append_getLast hne
        by_cases hlen : 1 < lines.length
        · rw [if_pos hlen]
          conv_rhs => rw [← hsplit]
          simp [List.filter_append, List.filter_cons, isFrameLine_entry, isFrameLine_blank]
        · rw [if_neg hlen]
          have h1 : lines = [""] := by
            cases lines with
            | nil => exact absurd rfl hne
            | cons a as =>
              cases as with
              | nil =>
                simp only [List.getLast?_singleton, Option.some.injEq] at hq
                rw [hq, hz]
              | cons b bs => simp at hlen
          rw [h1]
          simp [List.filter_cons, isFrameLine_entry, isFrameLine_blank]
      · rw [if_neg hz]
        simp [List.filter_append, List.filter_cons, isFrameLine_entry]

theorem dropTrailBlank_filter (p : String → Bool) (hp : p "" = false) :
    ∀ M : List String, (dropTrailBlank M).filter p = M.filter p
  | [] => rfl
  | x :: xs => by
    rw [dropTrailBlank_cons]
    have hIH := dropTrailBlank_filter p hp xs
    cases he : dropTrailBlank xs with
    | nil =>
      have hxs : xs.filter p = [] := by
        rw [← hIH, he]
        rfl
      by_cases hx : x = ""
      · show (if x = "" then [] else [x]).filter p = (x :: xs).filter p
        rw [if_pos hx, hx]
        simp [List.filter_cons, hp, hxs]
      · show (if x = "" then [] else [x]).filter p = (x :: xs).filter p
        rw [if_neg hx]
        simp [List.filter_cons, hxs]
    | cons z zs =>
      show (x :: z :: zs).filter p = (x :: xs).filter p
      rw [he] at hIH
      simp only [List.filter_cons, hIH]

theorem entry_data (key value : String) :
    (key ++ "=" ++ value).data = key.data ++ '=' :: value.data := by
  show (key.data ++ "=".data) ++ value.data = key.data ++ '=' :: value.data
  simp

theorem entry_ne_blank (key value : String) : ¬ key ++ "=" ++ value = "" := by
  intro h
  have hd := congrArg String.data h
  rw [entry_data] at hd
  simp at hd

theorem entry_no_nl (key value : String) (hk : ¬ '\n' ∈ key.data)
    (hv : ¬ '\n' ∈ value.data) : ¬ '\n' ∈ (key ++ "=" ++ value).data := by
  rw [entry_data]
  intro h
  rcases List.mem_append.mp h with h1 | h1
  · exact hk h1
  · rcases List.mem_cons.mp h1 with h2 | h2
    · exact absurd h2 (by decide)
    · exact hv h2

theorem replaceKeyLine_mem (key value : String) : ∀ lines : List String,
    ∀ l ∈ (replaceKeyLine key value lines).2,
      l = key ++ "=" ++ value ∨ l ∈ lines
  | [] => by intro l hl; exact absurd hl (by simp [replaceKeyLine])
  | line :: rest => by
    intro l hl
    simp only [replaceKeyLine] at hl
    by_cases h : goStartsWith line (key ++ "=") = true
    · rw [if_pos h] at hl
      rcases List.mem_cons.mp hl with h1 | h1
      · exact Or.inl h1
      · exact Or.inr (List.mem_cons_of_mem line h1)
    · rw [if_neg h] at hl
      rcases List.mem_cons.mp hl with h1 | h1
      · exact Or.inr (h1 ▸ List.mem_cons_self line rest)
      · rcases replaceKeyLine_mem key value rest l h1 with h2 | h2
        · exact Or.inl h2
        · exact Or.inr (List.mem_cons_of_mem line h2)

theorem updLines_mem (key value : String) (lines : List String) :
    ∀ l ∈ updLines key value lines, l = key ++ "=" ++ value ∨ l = "" ∨ l ∈ lines := by
  intro l hl
  simp only [updLines] at hl
  by_cases hf : (replaceKeyLine key value lines).1 = true
  · rw [if_pos hf] at hl
    rcases replaceKeyLine_mem key value lines l hl with h | h
    · exact Or.inl h
    · exact Or.inr (Or.inr h)
  · rw [if_neg hf] at hl
    cases hq : lines.getLast? with
    | none =>
      rw [hq] at hl
      rcases List.mem_append.mp hl with h | h
      · exact Or.inr (Or.inr h)
      · simp only [List.mem_singleton] at h
        exact Or.inl h
    | some z =>
      rw [hq] at hl
      have hl2 : l ∈ if z = "" then
          (if 1 < lines.length then lines.dropLast ++ [key ++ "=" ++ value, ""]
           else [key ++ "=" ++ value, ""])
          else lines ++ [key ++ "=" ++ value] := hl
      by_cases hz : z = ""
      · rw [if_pos hz] at hl2
        by_cases hlen : 1 < lines.length
        · rw [if_pos hlen] at hl2
          rcases List.mem_append.mp hl2 with h | h
          · exact Or.inr (Or.inr (List.dropLast_subset lines h))
          · rcases List.mem_cons.mp h with h1 | h1
            · exact Or.inl h1
            · simp only [List.mem_singleton] at h1
              exact Or.inr (Or.inl h1)
        · rw [if_neg hlen] at hl2
          rcases List.mem_cons.mp hl2 with h1 | h1
          · exact Or.inl h1
          · simp only [List.mem_singleton] at h1
            exact Or.inr (Or.inl h1)
      · rw [if_neg hz] at hl2
        rcases List.mem_append.mp hl2 with h | h
        · exact Or.inr (Or.inr h)
        · simp only [List.mem_singleton] at h
          exact Or.inl h

theorem updLines_no_nl (key value : String) (lines : List String)
    (hk : ¬ '\n' ∈ key.data) (hv : ¬ '\n' ∈ value.data)
    (hL : ∀ l ∈ lines, ¬ '\n' ∈ l.data) :
    ∀ l ∈ updLines key value lines, ¬ '\n' ∈ l.data := by
  intro l hl
  rcases updLines_mem key value lines l hl with h | h | h
  · rw [h]
    exact entry_no_nl key value hk hv
  · rw [h]
    simp
  · exact hL l h

theorem replaceKeyLine_found_mem (key value : String) : ∀ lines : List String,
    (replaceKeyLine key value lines).1 = true →
    key ++ "=" ++ value ∈ (replaceKeyLine key value lines).2
  | [] => by intro h; simp [replaceKeyLine] at h
  | line :: rest => by
    intro h
    simp only [replaceKeyLine] at h ⊢
    by_cases hs : goStartsWith line (key ++ "=") = true
    · rw [if_pos hs]
      exact List.mem_cons_self _ _
    · rw [if_neg hs] at h ⊢
      exact List.mem_cons_of_mem line (replaceKeyLine_found_mem key value rest h)

theorem entry_mem_updLines (key value : String) (lines : List String) :
    key ++ "=" ++ value ∈ updLines key value lines := by
  simp only [updLines]
  by_cases hf : (replaceKeyLine key value lines).1 = true
  · rw [if_pos hf]
    exact replaceKeyLine_found_mem key value lines hf
  · rw [if_neg hf]
    cases hq : lines.getLast? with
    | none => simp
    | some z =>
      show key ++ "=" ++ value ∈ if z = "" then
          (if 1 < lines.length then lines.dropLast ++ [key ++ "=" ++ value, ""]
           else [key ++ "=" ++ value, ""])
          else lines ++ [key ++ "=" ++ value]
      by_cases hz : z = ""
      · rw [if_pos hz]
        by_cases hlen : 1 < lines.length
        · rw [if_pos hlen]
          simp
        · rw [if_neg hlen]
          simp
      · rw [if_neg hz]
        simp

theorem dropTrailBlank_subset : ∀ M : List String, ∀ x ∈ dropTrailBlank M, x ∈ M
  | [] => by intro x hx; exact absurd hx (by simp [dropTrailBlank])
  | a :: as => by
    intro x hx
    rw [dropTrailBlank_cons] at hx
    cases he : dropTrailBlank as with
    | nil =>
      rw [he] at hx
      have hx2 : x ∈ if a = "" then ([] : List String) else [a] := hx
      by_cases ha : a = ""
      · rw [if_pos ha] at hx2
        exact absurd hx2 (by simp)
      · rw [if_neg ha] at hx2
        simp only [List.mem_singleton] at hx2
        exact hx2 ▸ List.mem_cons_self a as
    | cons z zs =>
      rw [he] at hx
      rcases List.mem_cons.mp hx with h | h
      · exact h ▸ List.mem_cons_self a as
      · exact List.mem_cons_of_mem a (dropTrailBlank_subset as x (he ▸ h))

theorem dropTrailBlank_ne_nil (M : List String) (e : String) (he : e ∈ M)
    (hne : ¬ e = "") : dropTrailBlank M ≠ [] := by
  intro h
  exact hne (dropTrailBlank_eq_nil M h e he)

theorem goSplit_updateEnvFile (key value content : String)
    (hk : ¬ '\n' ∈ key.data) (hv : ¬ '\n' ∈ value.data) :
    goSplit '\n' (updateEnvFile key value (some content))
      = dropTrailBlank (updLines key value (goSplit '\n' content)) ++ [""] := by
  have hL : ∀ l ∈ updLines key value (goSplit '\n' content), ¬ '\n' ∈ l.data :=
    updLines_no_nl key value _ hk hv (goSplit_no_sep '\n' content)
  have hS5 : trimRightNl (goJoin '\n' (updLines key value (goSplit '\n' content)))
      = goJoin '\n' (dropTrailBlank (updLines key value (goSplit '\n' content))) :=
    trimRightNl_goJoin _ hL
  show goSplit '\n'
      (trimRightNl (goJoin '\n' (updLines key value (goSplit '\n' content))) ++ "\n") = _
  rw [hS5, goSplit_append_nl]
  congr 1
  apply goSplit_goJoin
  · exact dropTrailBlank_ne_nil _ (key ++ "=" ++ value)
      (entry_mem_updLines key value _) (entry_ne_blank key value)
  · intro x hx
    exact hL x (dropTrailBlank_subset _ x hx)

/-- C8 counterexample: the upsert does not leave every non-`key` line of
the store unchanged — on content `"LOL_PLAYERS=a\n\n"` the final
`TrimRight`-then-newline normalisation drops the trailing empty line, so
the sequence of non-key lines of the written output differs from that of
the input. -/
theorem claim_C8_counterexample :
    ¬ ((goSplit '\n' (updateEnvFile "LOL_PLAYERS" "b" (some "LOL_PLAYERS=a\n\n"))).filter
        (fun l => !(goStartsWith l "LOL_PLAYERS="))
      = (goSplit '\n' "LOL_PLAYERS=a\n\n").filter
        (fun l => !(goStartsWith l "LOL_PLAYERS="))) := by decide

/-- C8 (amended): the store upsert preserves, in order, every line that
is neither the updated `key=` line nor an empty line (`isFrameLine`);
only the key line and trailing empty lines can change.  When the store
file is absent it creates content consisting of exactly the `key=value`
entry and a final newline. -/
theorem claim_C8_frame (key value : String)
    (hk : ¬ '\n' ∈ key.data) (hv : ¬ '\n' ∈ value.data) :
    (∀ content : String,
      (goSplit '\n' (updateEnvFile key value (some content))).filter (isFrameLine key)
        = (goSplit '\n' content).filter (isFrameLine key))
    ∧ updateEnvFile key value none = key ++ "=" ++ value ++ "\n" := by
  constructor
  · intro content
    rw [goSplit_updateEnvFile key value content hk hv]
    rw [List.filter_append]
    rw [dropTrailBlank_filter (isFrameLine key) (isFrameLine_blank key)]
    rw [updLines_filter]
    simp [isFrameLine_blank]
  · rfl

theorem claim_C8_frame_witness :
    ¬ '\n' ∈ "LOL_PLAYERS".data ∧ ¬ '\n' ∈ "b".data ∧
    (goSplit '\n' (updateEnvFile "LOL_PLAYERS" "b" (some "A=1\nLOL_PLAYERS=a"))).filter
        (isFrameLine "LOL_PLAYERS")
      = (goSplit '\n' "A=1\nLOL_PLAYERS=a").filter (isFrameLine "LOL_PLAYERS") :=
  ⟨by decide, by decide,
    (claim_C8_frame "LOL_PLAYERS" "b" (by decide) (by decide)).1 "A=1\nLOL_PLAYERS=a"⟩

theorem dropTrailBlank_append (A : List String) (e : String) (B : List String)
    (he : ¬ e = "") : dropTrailBlank (A ++ e :: B) = A ++ e :: dropTrailBlank B := by
  induction A with
  | nil =>
    show dropTrailBlank (e :: B) = e :: dropTrailBlank B
    rw [dropTrailBlank_cons]
    cases hd : dropTrailBlank B with
    | nil =>
      show (if e = "" then [] else [e]) = [e]
      rw [if_neg he]
    | cons z zs => rfl
  | cons a as ih =>
    show dropTrailBlank (a :: (as ++ e :: B)) = a :: (as ++ e :: dropTrailBlank B)
    rw [dropTrailBlank_cons, ih]
    cases hc : as ++ e :: dropTrailBlank B with
    | nil => exact absurd hc (by simp)
    | cons z zs => rfl

theorem bool_ne_true {b : Bool} (h : b = false) : ¬ b = true := by
  rw [h]
  exact Bool.false_ne_true

theorem replaceKeyLine_structure (key value : String) : ∀ lines : List String,
    (replaceKeyLine key value lines).1 = true →
    ∃ A B, (replaceKeyLine key value lines).2 = A ++ (key ++ "=" ++ value) :: B
      ∧ ∀ a ∈ A, goStartsWith a (key ++ "=") = false
  | [] => by intro h; simp [replaceKeyLine] at h
  | line :: rest => by
    intro h
    simp only [replaceKeyLine] at h ⊢
    by_cases hs : goStartsWith line (key ++ "=") = true
    · rw [if_pos hs]
      exact ⟨[], rest, rfl, by simp⟩
    · rw [if_neg hs] at h ⊢
      obtain ⟨A, B, hAB, hA⟩ := replaceKeyLine_structure key value rest h
      refine ⟨line :: A, B, ?_, ?_⟩
      · show line :: (replaceKeyLine key value rest).2 = (line :: A) ++ (key ++ "=" ++ value) :: B
        rw [hAB]
        rfl
      · intro a ha
        rcases List.mem_cons.mp ha with h1 | h1
        · subst h1
          exact Bool.eq_false_iff.mpr hs
        · exact hA a h1

theorem replaceKeyLine_not_found (key value : String) : ∀ lines : List String,
    (replaceKeyLine key value lines).1 = false →
    (replaceKeyLine key value lines).2 = lines
      ∧ ∀ l ∈ lines, goStartsWith l (key ++ "=") = false
  | [] => by intro _; exact ⟨rfl, by simp⟩
  | line :: rest => by
    intro h
    simp only [replaceKeyLine] at h ⊢
    by_cases hs : goStartsWith line (key ++ "=") = true
    · rw [if_pos hs] at h
      simp at h
    · rw [if_neg hs] at h ⊢
      obtain ⟨h2, hall⟩ := replaceKeyLine_not_found key value rest h
      refine ⟨?_, ?_⟩
      · show line :: (replaceKeyLine key value rest).2 = line :: rest
        rw [h2]
      · intro l hl
        rcases List.mem_cons.mp hl with h1 | h1
        · subst h1
          exact Bool.eq_false_iff.mpr hs
        · exact hall l h1

theorem updLines_structure (key value : String) (lines : List String) :
    ∃ A B, updLines key value lines = A ++ (key ++ "=" ++ value) :: B
      ∧ ∀ a ∈ A, goStartsWith a (key ++ "=") = false := by
  simp only [updLines]
  by_cases hf : (replaceKeyLine key value lines).1 = true
  · rw [if_pos hf]
    exact replaceKeyLine_structure key value lines hf
  · rw [if_neg hf]
    obtain ⟨-, hall⟩ := replaceKeyLine_not_found key value lines (Bool.eq_false_iff.mpr hf)
    cases hq : lines.getLast? with
    | none => exact ⟨lines, [], rfl, hall⟩
    | some z =>
      show ∃ A B, (if z = "" then
          (if 1 < lines.length then lines.dropLast ++ [key ++ "=" ++ value, ""]
           else [key ++ "=" ++ value, ""])
          else lines ++ [key ++ "=" ++ value]) = A ++ (key ++ "=" ++ value) :: B
        ∧ ∀ a ∈ A, goStartsWith a (key ++ "=") = false
      by_cases hz : z = ""
      · rw [if_pos hz]
        by_cases hlen : 1 < lines.length
        · rw [if_pos hlen]
          exact ⟨lines.dropLast, [""], rfl,
            fun a ha => hall a (List.dropLast_subset lines ha)⟩
        · rw [if_neg hlen]
          exact ⟨[], [""], rfl, by simp⟩
      · rw [if_neg hz]
        exact ⟨lines, [], rfl, hall⟩

theorem extractPlayers_append : ∀ A : List String,
    (∀ a ∈ A, goStartsWith a "LOL_PLAYERS=" = false) →
    ∀ rest, extractPlayers (A ++ rest) = extractPlayers rest
  | [], _, rest => rfl
  | a :: as, h, rest => by
    show extractPlayers (a :: (as ++ rest)) = extractPlayers rest
    simp only [extractPlayers]
    rw [if_neg (bool_ne_true (h a (List.mem_cons_self a as)))]
    exact extractPlayers_append as (fun x hx => h x (List.mem_cons_of_mem a hx)) rest

theorem extractPlayers_entry (v : String) (rest : List String) (hv : ¬ v = "") :
    extractPlayers (("LOL_PLAYERS=" ++ v) :: rest) = goSplit ',' v := by
  have hstart : goStartsWith ("LOL_PLAYERS=" ++ v) "LOL_PLAYERS=" = true := by
    show listStartsWith "LOL_PLAYERS=".data ("LOL_PLAYERS=" ++ v).data = true
    rw [data_append]
    exact listStartsWith_append _ _
  have hsf : splitFirst '=' ("LOL_PLAYERS=" ++ v).data
      = some ("LOL_PLAYERS".data, v.data) := by
    rw [show ("LOL_PLAYERS=" ++ v).data = "LOL_PLAYERS".data ++ '=' :: v.data from rfl]
    exact splitFirst_append_sep '=' _ _ (by decide)
  have hsn : goSplitN2 '=' ("LOL_PLAYERS=" ++ v) = ["LOL_PLAYERS", v] := by
    simp only [goSplitN2, hsf, string_mk_data]
  simp only [extractPlayers]
  rw [if_pos hstart, hsn]
  show (if ¬ v = "" then goSplit ',' v else []) = goSplit ',' v
  rw [if_pos hv]

theorem extractPlayers_no_sep : ∀ lines : List String,
    ∀ q ∈ extractPlayers lines, ¬ ',' ∈ q.data
  | [] => by intro q hq; exact absurd hq (by simp [extractPlayers])
  | line :: rest => by
    intro q hq
    simp only [extractPlayers] at hq
    by_cases hs : goStartsWith line "LOL_PLAYERS=" = true
    · rw [if_pos hs] at hq
      cases hsf : splitFirst '=' line.data with
      | none =>
        have hsn : goSplitN2 '=' line = [line] := by simp only [goSplitN2, hsf]
        rw [hsn] at hq
        have hq2 : q ∈ ([] : List String) := hq
        simp at hq2
      | some r =>
        obtain ⟨a, b⟩ := r
        have hsn : goSplitN2 '=' line = [String.mk a, String.mk b] := by
          simp only [goSplitN2, hsf]
        rw [hsn] at hq
        have hq2 : q ∈ (if ¬ String.mk b = "" then goSplit ',' (String.mk b) else []) := hq
        by_cases hb : ¬ String.mk b = ""
        · rw [if_pos hb] at hq2
          exact goSplit_no_sep ',' (String.mk b) q hq2
        · rw [if_neg hb] at hq2
          simp at hq2
    · rw [if_neg hs] at hq
      exact extractPlayers_no_sep rest q hq

theorem extractPlayers_chars : ∀ lines : List String,
    (∀ l ∈ lines, ¬ '\n' ∈ l.data) →
    ∀ q ∈ extractPlayers lines, ¬ '\n' ∈ q.data
  | [] => by intro _ q hq; exact absurd hq (by simp [extractPlayers])
  | line :: rest => by
    intro hL q hq
    simp only [extractPlayers] at hq
    by_cases hs : goStartsWith line "LOL_PLAYERS=" = true
    · rw [if_pos hs] at hq
      cases hsf : splitFirst '=' line.data with
      | none =>
        have hsn : goSplitN2 '=' line = [line] := by simp only [goSplitN2, hsf]
        rw [hsn] at hq
        have hq2 : q ∈ ([] : List String) := hq
        simp at hq2
      | some r =>
        obtain ⟨a, b⟩ := r
        have hsn : goSplitN2 '=' line = [String.mk a, String.mk b] := by
          simp only [goSplitN2, hsf]
        rw [hsn] at hq
        have hq2 : q ∈ (if ¬ String.mk b = "" then goSplit ',' (String.mk b) else []) := hq
        by_cases hb : ¬ String.mk b = ""
        · rw [if_pos hb] at hq2
          intro hnl
          have hsub : '\n' ∈ b := goSplit_mem_subset ',' (String.mk b) q hq2 '\n' hnl
          have hbl := (splitFirst_subset '=' line.data a b hsf).2 '\n' hsub
          exact hL line (List.mem_cons_self _ _) hbl
        · rw [if_neg hb] at hq2
          simp at hq2
    · rw [if_neg hs] at hq
      exact extractPlayers_chars rest (fun l hl => hL l (List.mem_cons_of_mem line hl)) q hq

theorem rosterPlayers_updateEnvFile (v input : String)
    (hv : ¬ v = "") (hvn : ¬ '\n' ∈ v.data) :
    rosterPlayers (updateEnvFile "LOL_PLAYERS" v (some input)) = goSplit ',' v := by
  obtain ⟨A, B, hAB, hA⟩ := updLines_structure "LOL_PLAYERS" v (goSplit '\n' input)
  show extractPlayers (goSplit '\n' (updateEnvFile "LOL_PLAYERS" v (some input)))
      = goSplit ',' v
  rw [goSplit_updateEnvFile "LOL_PLAYERS" v input (by decide) hvn, hAB]
  rw [dropTrailBlank_append A _ B (entry_ne_blank "LOL_PLAYERS" v)]
  rw [List.append_assoc]
  rw [extractPlayers_append A (fun a ha => hA a ha)]
  show extractPlayers (("LOL_PLAYERS" ++ "=" ++ v) :: (dropTrailBlank B ++ [""]))
      = goSplit ',' v
  rw [show "LOL_PLAYERS" ++ "=" ++ v = "LOL_PLAYERS=" ++ v from rfl]
  exact extractPlayers_entry v _ hv

theorem count_filter_pos (q : String → Bool) (a : String) (l : List String)
    (hqa : q a = true) : (l.filter q).count a = l.count a := by
  rw [List.count_filter]
  simp [hqa]

/-- C9: upserting a player already recorded in the comma-separated
`LOL_PLAYERS` list never appends a duplicate — after an upsert the list
holds exactly one occurrence of the player, and upserting the same
player twice produces the same store content as upserting it once. -/
theorem claim_C9_dedup (p : String) (content : Option String)
    (hp : ¬ p = "") (hc : ¬ ',' ∈ p.data) (hn : ¬ '\n' ∈ p.data)
    (h1 : (rosterPlayersOpt content).count p ≤ 1) :
    (rosterPlayers (addPlayerToEnvFile p content)).count p = 1
    ∧ addPlayerToEnvFile p (some (addPlayerToEnvFile p content))
        = addPlayerToEnvFile p content := by
  cases content with
  | none =>
    have hout : addPlayerToEnvFile p none = ("LOL_PLAYERS=" ++ p) ++ "\n" := rfl
    have hroster : rosterPlayers (("LOL_PLAYERS=" ++ p) ++ "\n") = [p] := by
      show extractPlayers (goSplit '\n' (("LOL_PLAYERS=" ++ p) ++ "\n")) = [p]
      rw [goSplit_append_nl]
      rw [goSplit_of_no_sep '\n' ("LOL_PLAYERS=" ++ p) (by
        rw [data_append]
        intro hmem
        rcases List.mem_append.mp hmem with h | h
        · exact absurd h (by decide)
        · exact hn h)]
      rw [show ([("LOL_PLAYERS=" ++ p)] ++ [""] : List String)
          = ("LOL_PLAYERS=" ++ p) :: [""] from rfl]
      rw [extractPlayers_entry p [""] hp]
      exact goSplit_of_no_sep ',' p hc
    constructor
    · rw [hout, hroster]
      simp
    · rw [hout]
      show addPlayerToEnvFile p (some (("LOL_PLAYERS=" ++ p) ++ "\n"))
          = ("LOL_PLAYERS=" ++ p) ++ "\n"
      simp only [addPlayerToEnvFile]
      rw [show extractPlayers (goSplit '\n' (("LOL_PLAYERS=" ++ p) ++ "\n")) = [p]
        from hroster]
      rw [if_pos (by simp : ([p].contains p) = true)]
  | some input =>
    by_cases hmem : (extractPlayers (goSplit '\n' input)).contains p = true
    · have hout : addPlayerToEnvFile p (some input) = input := by
        simp only [addPlayerToEnvFile]
        rw [if_pos hmem]
      have hpm : p ∈ extractPlayers (goSplit '\n' input) :=
        List.mem_of_elem_eq_true hmem
      have h1' : (extractPlayers (goSplit '\n' input)).count p ≤ 1 := h1
      have hnz : (extractPlayers (goSplit '\n' input)).count p ≠ 0 := by
        intro h0
        exact (List.count_eq_zero.mp h0) hpm
      constructor
      · rw [hout]
        show (extractPlayers (goSplit '\n' input)).count p = 1
        omega
      · rw [hout]
        exact hout
    · have hpnm : ¬ p ∈ extractPlayers (goSplit '\n' input) := by
        intro hm
        exact hmem (List.elem_eq_true_of_mem hm)
      have hout : addPlayerToEnvFile p (some input)
          = updateEnvFile "LOL_PLAYERS"
              (goJoin ',' ((extractPlayers (goSplit '\n' input) ++ [p]).filter
                (fun q => ¬ q = ""))) (some input) := by
        simp only [addPlayerToEnvFile]
        rw [if_neg hmem]
      set r0 := extractPlayers (goSplit '\n' input) with hr0
      set cleaned := (r0 ++ [p]).filter (fun q => ¬ q = "") with hcl
      have hpc : p ∈ cleaned := by
        rw [hcl]
        exact List.mem_filter.mpr ⟨by simp, by simp [hp]⟩
      have hclne : cleaned ≠ [] := by
        intro h0
        rw [h0] at hpc
        simp at hpc
      have hcl_ne_blank : ∀ q ∈ cleaned, ¬ q = "" := by
        intro q hq
        have := (List.mem_filter.mp (hcl ▸ hq)).2
        simpa using this
      have hcl_no_comma : ∀ q ∈ cleaned, ¬ ',' ∈ q.data := by
        intro q hq
        have hq2 := (List.mem_filter.mp (hcl ▸ hq)).1
        rcases List.mem_append.mp hq2 with h | h
        · exact extractPlayers_no_sep (goSplit '\n' input) q h
        · simp only [List.mem_singleton] at h
          subst h
          exact hc
      have hcl_no_nl : ∀ q ∈ cleaned, ¬ '\n' ∈ q.data := by
        intro q hq
        have hq2 := (List.mem_filter.mp (hcl ▸ hq)).1
        rcases List.mem_append.mp hq2 with h | h
        · exact extractPlayers_chars (goSplit '\n' input)
            (goSplit_no_sep '\n' input) q h
        · simp only [List.mem_singleton] at h
          subst h
          exact hn
      have hv : ¬ goJoin ',' cleaned = "" := by
        cases hcle : cleaned with
        | nil => exact absurd hcle hclne
        | cons z zs =>
          exact goJoin_ne_empty ',' z zs
            (hcl_ne_blank z (hcle ▸ List.mem_cons_self z zs))
      have hvn : ¬ '\n' ∈ (goJoin ',' cleaned).data := by
        intro hm
        rcases goJoin_mem_char ',' cleaned '\n' hm with h | ⟨x, hx, hcx⟩
        · exact absurd h (by decide)
        · exact hcl_no_nl x hx hcx
      have hroundtrip : goSplit ',' (goJoin ',' cleaned) = cleaned :=
        goSplit_goJoin ',' cleaned hclne hcl_no_comma
      have hroster : rosterPlayers (addPlayerToEnvFile p (some input)) = cleaned := by
        rw [hout, rosterPlayers_updateEnvFile _ input hv hvn, hroundtrip]
      constructor
      · show (rosterPlayers (addPlayerToEnvFile p (some input))).count p = 1
        rw [hroster, hcl]
        rw [count_filter_pos _ p _ (by simp [hp])]
        rw [List.count_append]
        rw [List.count_eq_zero.mpr hpnm]
        simp
      · obtain ⟨out, hgen⟩ : ∃ out, addPlayerToEnvFile p (some input) = out := ⟨_, rfl⟩
        rw [hgen] at hroster ⊢
        simp only [addPlayerToEnvFile]
        rw [show extractPlayers (goSplit '\n' out) = cleaned from hroster]
        rw [if_pos (List.elem_eq_true_of_mem hpc)]

theorem claim_C9_dedup_witness :
    ¬ "alice" = "" ∧ ¬ ',' ∈ "alice".data ∧ ¬ '\n' ∈ "alice".data ∧
    (rosterPlayersOpt (some "LOL_PLAYERS=bob\n")).count "alice" ≤ 1 ∧
    ((rosterPlayers (addPlayerToEnvFile "alice" (some "LOL_PLAYERS=bob\n"))).count
        "alice" = 1
      ∧ addPlayerToEnvFile "alice"
          (some (addPlayerToEnvFile "alice" (some "LOL_PLAYERS=bob\n")))
          = addPlayerToEnvFile "alice" (some "LOL_PLAYERS=bob\n")) :=
  ⟨by decide, by decide, by decide, by decide,
    claim_C9_dedup "alice" (some "LOL_PLAYERS=bob\n")
      (by decide) (by decide) (by decide) (by decide)⟩
